import Mathlib

/-!
# Verification of the filling-process optimization core

Shallow embedding of `src/plan/__init__.py` (Azure-function entry `main` plus
the four core components: the Kuhn matcher inside `employee_assignment`, the
backtracking enumerator, `score_assignment_quantity`, and
`schedule_orders_greedy_nosplit`).

Modelling conventions:
* String identifiers (lines, employees, order numbers, material numbers) are
  modelled as natural numbers; the code only uses identity and the total
  lexicographic order of identifiers, both of which `Nat` provides.
* Python's arbitrary-precision `int` is modelled as `Int`; the float
  `time_to_complete` is modelled as `ℚ` (the code only multiplies, truncates
  and compares it; `density = 1/tpu` comparisons are expressed directly via
  `tpu`, using that `1/a > 1/b ↔ a < b` for positives and that a non-positive
  `tpu` yields infinite density).
* Python dicts keyed by identifiers are modelled as association lists
  (`match_emp_to_line`) or as functions updated pointwise (scheduler state);
  Python sets are modelled as duplicate-free lists.
* `datetime` start stamps are modelled as integer second offsets:
  `shift_start + timedelta(seconds=u)` becomes `shift_start + u`.
-/

/-- Line identifier (string in the source, only identity/order used). -/
abbrev Line := Nat

/-- Employee identifier (string in the source, only identity/order used). -/
abbrev Emp := Nat

/-- One record of `employees_available`.  The `qualifiedLines` field is an
`Option` because the source reads it with `emp.get("qualifiedLines", [])`: a
record lacking that exact key is modelled by `none`. -/
structure Employee where
  id : Emp
  qualifiedLines : Option (List Line)
deriving DecidableEq

/-- `emp.get("qualifiedLines", [])` from the source. -/
def Employee.quals (e : Employee) : List Line := e.qualifiedLines.getD []

/-- One record of `production_orders`. -/
structure POrder where
  order_number : Nat
  material_number : Nat
  quantity : Int
  time_to_complete : ℚ
deriving DecidableEq

/-- One record of `materials`. -/
structure Material where
  material_number : Nat
  line : List Line
deriving DecidableEq

/-- `line_to_emps` from `employee_assignment`:
`[emp["id"] for emp in employees_available if line in emp.get("qualifiedLines", [])]`. -/
def line_to_emps (employees_available : List Employee) (line : Line) : List Emp :=
  (employees_available.filter (fun e => decide (line ∈ e.quals))).map Employee.id

/-- `match_emp_to_line[emp] = line`: Python dict assignment on an association
list (replace the binding if the key is present, append it otherwise). -/
def mset : List (Emp × Line) → Emp → Line → List (Emp × Line)
  | [], e, l => [(e, l)]
  | (e', l') :: rest, e, l =>
      if e' = e then (e, l) :: rest else (e', l') :: mset rest e l

/-- The candidate loop of `try_augment`, abstracted over the recursive
augmenting call `rec` (which is `try_augment` at one unit less fuel).  Returns
`(found, match_emp_to_line, seen)`; the mutable dict and set of the source are
threaded explicitly. -/
def try_augment_list
    (rec : Line → List (Emp × Line) → List Emp → Bool × List (Emp × Line) × List Emp)
    (line : Line) :
    List Emp → List (Emp × Line) → List Emp → Bool × List (Emp × Line) × List Emp
  | [], m, seen => (false, m, seen)
  | e :: cands, m, seen =>
      if e ∈ seen then try_augment_list rec line cands m seen
      else
        match List.lookup e m with
        | none => (true, mset m e line, e :: seen)
        | some l0 =>
            match rec l0 m (e :: seen) with
            | (true, m1, s1) => (true, mset m1 e line, s1)
            | (false, m1, s1) => try_augment_list rec line cands m1 s1

/-- `try_augment(line, seen)` from the source, with a fuel parameter making
the recursion structural.  The recursion of the source is bounded because
`seen` strictly grows before every recursive call, so any fuel exceeding the
number of employees is enough (proved below). -/
def try_augment (adj : Line → List Emp) :
    Nat → Line → List (Emp × Line) → List Emp → Bool × List (Emp × Line) × List Emp
  | 0, _, m, seen => (false, m, seen)
  | fuel + 1, line, m, seen => try_augment_list (try_augment adj fuel) line (adj line) m seen

/-- `for line in lines_available: try_augment(line, set())`. -/
def kuhn_loop (adj : Line → List Emp) (fuel : Nat) : List Line → List (Emp × Line) → List (Emp × Line)
  | [], m => m
  | line :: rest, m => kuhn_loop adj fuel rest (try_augment adj fuel line m []).2.1

/-- The final `match_emp_to_line` dict after the Kuhn loop of
`employee_assignment`. -/
def match_emp_to_line (lines_available : List Line) (employees_available : List Employee) :
    List (Emp × Line) :=
  kuhn_loop (line_to_emps employees_available) (employees_available.length + 1)
    lines_available []

/-- `max_size = len(match_emp_to_line)`. -/
def max_size (lines_available : List Line) (employees_available : List Employee) : Nat :=
  (match_emp_to_line lines_available employees_available).length

/-- `{emp["id"] for emp in employees_available}` as a duplicate-free list;
its length is `total_emps`. -/
def emp_ids (employees_available : List Employee) : List Emp :=
  (employees_available.map Employee.id).dedup

/-- Lexicographic order on (line, employee) pairs: `sorted(cur_pairs)`. -/
def pairLE (a b : Line × Emp) : Bool :=
  Nat.blt a.1 b.1 || (Nat.beq a.1 b.1 && Nat.ble a.2 b.2)

/-- `tuple(sorted(cur_pairs))`: normalized form of a pair set (a stable
structural sort, matching Python's `sorted`). -/
def sortPairs (p : List (Line × Emp)) : List (Line × Emp) :=
  List.insertionSort (fun a b => pairLE a b = true) p

/-- `ordered_lines = sorted(lines_available, key=lambda ln: len(line_to_emps.get(ln, [])))`. -/
def ordered_lines (lines_available : List Line) (employees_available : List Employee) : List Line :=
  List.insertionSort
    (fun a b => (line_to_emps employees_available a).length ≤
      (line_to_emps employees_available b).length) lines_available

/-- `results_set.add(...)`: set insertion into the result collection. -/
def insertResult (res : List (List (Line × Emp))) (r : List (Line × Emp)) :
    List (List (Line × Emp)) :=
  if r ∈ res then res else res ++ [r]

/-- The `backtrack(i)` recursion of `employee_assignment`.  The slice
`ordered_lines[i:]` is the `rem` argument; `used`, `cur` and `res` are the
mutable `used_emps`, `cur_pairs` and `results_set` threaded explicitly
(`used` is kept as a duplicate-free list, so its length is the set size).
The prune test is computed over `Int` exactly as Python evaluates it. -/
def backtrack (adj : Line → List Emp) (M total : Nat) :
    List Line → List Emp → List (Line × Emp) → List (List (Line × Emp)) →
      List (List (Line × Emp))
  | [], used, cur, res =>
      if (cur.length : Int) + min ((0 : Int)) ((total : Int) - (used.length : Int)) < (M : Int)
      then res
      else if cur.length = M then insertResult res (sortPairs cur) else res
  | line :: rest, used, cur, res =>
      if (cur.length : Int) +
          min ((rest.length : Int) + 1) ((total : Int) - (used.length : Int)) < (M : Int)
      then res
      else
        let res1 := backtrack adj M total rest used cur res
        (adj line).foldl
          (fun r e =>
            if e ∈ used then r
            else backtrack adj M total rest (e :: used) (cur ++ [(line, e)]) r)
          res1

/-- The full enumerator: `backtrack(0)` started on the fewest-candidates-first
line order with empty state. -/
def enumerate_matchings (lines_available : List Line) (employees_available : List Employee)
    (M : Nat) : List (List (Line × Emp)) :=
  backtrack (line_to_emps employees_available) M (emp_ids employees_available).length
    (ordered_lines lines_available employees_available) [] [] []

/-- Python list comparison on normalized pair lists: the final
`results.sort(key=...)` of `employee_assignment`. -/
def comboLE : List (Line × Emp) → List (Line × Emp) → Bool
  | [], _ => true
  | _ :: _, [] => false
  | a :: as_, b :: bs => if a = b then comboLE as_ bs else pairLE a b

/-- `employee_assignment` from the source.  A combo `[{line: emp}, ...]` is
modelled as its list of (line, employee) pairs. -/
def employee_assignment (lines_available : List Line) (employees_available : List Employee) :
    List (List (Line × Emp)) :=
  let M := max_size lines_available employees_available
  if M = 0 then []
  else List.insertionSort (fun a b => comboLE a b = true)
    (enumerate_matchings lines_available employees_available M)

/-- A valid matching of the qualification graph restricted to the line set
`L`: no line repeated, no employee repeated, every pair an edge. -/
def matchingOn (adj : Line → List Emp) (L : List Line) (P : List (Line × Emp)) : Prop :=
  (P.map Prod.fst).Nodup ∧ (P.map Prod.snd).Nodup ∧ ∀ p ∈ P, p.1 ∈ L ∧ p.2 ∈ adj p.1

instance (adj : Line → List Emp) (L : List Line) (P : List (Line × Emp)) :
    Decidable (matchingOn adj L P) := by
  unfold matchingOn; infer_instance

/-- All edges of the qualification graph, line by line. -/
def edgeList (lines_available : List Line) (employees_available : List Employee) :
    List (Line × Emp) :=
  lines_available.bind
    (fun l => (line_to_emps employees_available l).map (fun e => (l, e)))

/-- A brute-force enumeration containing (up to permutation) every matching of
the qualification graph. -/
def allMatchings (lines_available : List Line) (employees_available : List Employee) :
    List (List (Line × Emp)) :=
  (edgeList lines_available employees_available).sublists.filter
    (fun P => decide (matchingOn (line_to_emps employees_available) lines_available P))

/-- The true maximum-cardinality matching size of the qualification graph,
defined by brute force. -/
def trueMaxMatchingSize (lines_available : List Line) (employees_available : List Employee) :
    Nat :=
  ((allMatchings lines_available employees_available).map List.length).foldr max 0

/-- `mat_to_lines.get(k, set())`: the dict comprehension keeps the last record
for a repeated material number, so lookup scans the reversed list. -/
def mat_to_lines (materials : List Material) (k : Nat) : List Line :=
  match materials.reverse.find? (fun m => m.material_number == k) with
  | some m => m.line
  | none => []

/-- `score_assignment_quantity` from the source. -/
def score_assignment_quantity (lines_for_combo : List Line) (production_orders : List POrder)
    (materials : List Material) : Int :=
  production_orders.foldl
    (fun total po =>
      if lines_for_combo.any (fun l => (mat_to_lines materials po.material_number).contains l)
      then total + po.quantity else total)
    0

/-- `int(x)` on a rational: truncation toward zero.  On the exact rational
`x.num / x.den` this is `Int` T-division of the numerator by the (positive)
denominator, which truncates toward zero exactly as Python's `int()`. -/
def ratTrunc (x : ℚ) : Int := Int.tdiv x.num (x.den : Int)

/-- One enriched order of the scheduler.  The float `density` field of the
source is not stored: it equals `1/tpu` when `tpu > 0` and `+∞` otherwise, and
the comparators below express its comparisons directly through `tpu`. -/
structure Job where
  order_number : Nat
  material_number : Nat
  duration_s : Int
  eligible_lines : List Line
  tpu : ℚ
deriving DecidableEq

/-- Ascending sort of identifiers (`sorted(...)`). -/
def sortNats (l : List Nat) : List Nat := List.insertionSort (fun a b => a ≤ b) l

/-- `eligible_lines_for_order`: `sorted(set(available_lines) & mat_to_lines.get(...))`. -/
def eligible_lines_for_order (available_lines : List Line) (materials : List Material)
    (po : POrder) : List Line :=
  sortNats ((available_lines.filter
    (fun l => (mat_to_lines materials po.material_number).contains l)).dedup)

/-- The enrichment/filter loop of the scheduler: keep orders with at least one
eligible line, computing `duration_s = int(quantity * time_to_complete)`. -/
def enrich (available_lines : List Line) (materials : List Material)
    (production_orders : List POrder) : List Job :=
  production_orders.filterMap (fun po =>
    let elig := eligible_lines_for_order available_lines materials po
    if elig = [] then none
    else some ⟨po.order_number, po.material_number,
      ratTrunc ((po.quantity : ℚ) * po.time_to_complete), elig, po.time_to_complete⟩)

/-- `density a > density b` where `density = 1/tpu` for `tpu > 0` and `+∞`
otherwise (`(1.0 / tpu) if tpu > 0 else float("inf")`). -/
def densGT (a b : Job) : Bool :=
  (decide (0 < b.tpu) && !(decide (0 < a.tpu))) ||
  (decide (0 < a.tpu) && decide (0 < b.tpu) && decide (a.tpu < b.tpu))

/-- `density a = density b` under the same reading. -/
def densEQ (a b : Job) : Bool :=
  (!(decide (0 < a.tpu)) && !(decide (0 < b.tpu))) ||
  (decide (0 < a.tpu) && decide (0 < b.tpu) && decide (a.tpu = b.tpu))

/-- The scheduler's sort key order: `(-density, duration_s, order_number)`
lexicographically, i.e. density descending, then duration ascending, then
order identifier ascending. -/
def jobLE (a b : Job) : Bool :=
  densGT a b ||
  (densEQ a b &&
    (decide (a.duration_s < b.duration_s) ||
      (decide (a.duration_s = b.duration_s) && Nat.ble a.order_number b.order_number)))

/-- `enriched.sort(key=lambda x: (-density, duration_s, order_number))`. -/
def sorted_jobs (available_lines : List Line) (materials : List Material)
    (production_orders : List POrder) : List Job :=
  List.insertionSort (fun a b => jobLE a b = true)
    (enrich available_lines materials production_orders)

/-- Mutable scheduler state: `line_time_used` and `per_line_sequence`. -/
structure SchedState where
  used : Line → Int
  seq : Line → List (Nat × Int)

/-- Strict comparison of the `max(..., key=...)` key
`(shift_len - used, -used, ln)` of the line choice. -/
def lineKeyGT (shiftLen : Int) (used : Line → Int) (x b : Line) : Bool :=
  decide (shiftLen - used b < shiftLen - used x) ||
  (decide (shiftLen - used x = shiftLen - used b) &&
    (decide (-(used b) < -(used x)) ||
      (decide (-(used x) = -(used b)) && Nat.blt b x)))

/-- Python's `max(candidates, key=...)`: first element attaining the greatest
key (scan keeping the current best, replacing it only on a strictly greater
key).  `none` on the empty list (Python would raise, but the caller guards). -/
def choose_best_line (shiftLen : Int) (used : Line → Int) : List Line → Option Line
  | [] => none
  | c :: cs => some (cs.foldl (fun b x => if lineKeyGT shiftLen used x b then x else b) c)

/-- The body of the scheduler's placement loop for one enriched order. -/
def schedule_step (shift_start shiftLen : Int) (st : SchedState) (job : Job) : SchedState :=
  let candidates := job.eligible_lines.filter
    (fun ln => decide (st.used ln + job.duration_s ≤ shiftLen))
  match choose_best_line shiftLen st.used candidates with
  | none => st
  | some b =>
      { used := fun ln => if ln = b then st.used ln + job.duration_s else st.used ln,
        seq := fun ln =>
          if ln = b then st.seq ln ++ [(job.order_number, shift_start + st.used b)]
          else st.seq ln }

/-- `schedule_orders_greedy_nosplit` from the source.  The returned dict is
modelled as the association list keyed by `available_lines`; a start stamp is
the integer `shift_start + line_time_used[best_line]`. -/
def schedule_orders_greedy_nosplit (available_lines : List Line)
    (production_orders : List POrder) (materials : List Material)
    (shift_start : Int) (shift_length_seconds : Int) : List (Line × List (Nat × Int)) :=
  if shift_length_seconds ≤ 0 ∨ available_lines = [] then
    available_lines.map (fun ln => (ln, []))
  else
    let jobs := sorted_jobs available_lines materials production_orders
    let final := jobs.foldl (schedule_step shift_start shift_length_seconds)
      ⟨fun _ => 0, fun _ => []⟩
    available_lines.map (fun ln => (ln, final.seq ln))

/-- The JSON response of `main` (transport stripped): shift start, sorted
chosen lines, the chosen assignment, and the per-line sequence. -/
structure PlanOutput where
  shift_start : Int
  lines : List Line
  assignment : List (Line × Emp)
  sequence : List (Line × List (Nat × Int))
deriving DecidableEq

/-- The best-assignment selection loop of `main`: strict improvement over the
running best quantity starting from `best_idx = 0`, `best_qty = -1`. -/
def pick_best (production_orders : List POrder) (materials : List Material) :
    List (List (Line × Emp)) → List (Line × Emp) → Int → List (Line × Emp)
  | [], best, _ => best
  | c :: rest, best, bq =>
      let q := score_assignment_quantity (c.map Prod.fst) production_orders materials
      if bq < q then pick_best production_orders materials rest c q
      else pick_best production_orders materials rest best bq

/-- The core of `main` after JSON/timestamp parsing: assignment enumeration,
best-assignment selection, and scheduling. -/
def plan_core (lines_available : List Line) (employees_available : List Employee)
    (production_orders : List POrder) (materials : List Material)
    (shift_start : Int) (shift_length_seconds : Int) : PlanOutput :=
  match employee_assignment lines_available employees_available with
  | [] => ⟨shift_start, [], [], []⟩
  | c :: rest =>
      let chosen := pick_best production_orders materials (c :: rest) c (-1)
      let chosen_lines := chosen.map Prod.fst
      ⟨shift_start, sortNats chosen_lines, chosen,
        schedule_orders_greedy_nosplit chosen_lines production_orders materials
          shift_start shift_length_seconds⟩

/-- Modelled from the spec: the line choice rule claimed in §4.4 step 5 —
greatest remaining capacity, ties by smallest used-time, then by line
identifier *ascending* (smallest identifier wins).  Used only to compare the
claimed rule with the source's `max(..., key=...)` choice. -/
def spec_line_better (shiftLen : Int) (used : Line → Int) (x b : Line) : Bool :=
  decide (shiftLen - used b < shiftLen - used x) ||
  (decide (shiftLen - used x = shiftLen - used b) &&
    (decide (used x < used b) || (decide (used x = used b) && Nat.blt x b)))

/-- Modelled from the spec: first candidate under the claimed rule
`spec_line_better`. -/
def spec_choose_line (shiftLen : Int) (used : Line → Int) : List Line → Option Line
  | [] => none
  | c :: cs => some (cs.foldl (fun b x => if spec_line_better shiftLen used x b then x else b) c)

/-- The start stamps an order sequence must carry when placements are
contiguous from `shift_start`: each job starts at `shift_start` plus the
accumulated used-time `u` before it. -/
def with_starts (shift_start : Int) : List Job → Int → List (Nat × Int)
  | [], _ => []
  | j :: rest, u => (j.order_number, shift_start + u) :: with_starts shift_start rest (u + j.duration_s)

/-- Total duration of a list of jobs. -/
def sum_durations (jobs : List Job) : Int := (jobs.map Job.duration_s).sum

/-- The density of an enriched order as the spec describes it:
`1/time_to_complete`, infinite (`none`) when the sort key would be
`float("inf")`. -/
def density (j : Job) : Option ℚ := if 0 < j.tpu then some (1 / j.tpu) else none

/-- `a > b` on densities, `none` standing for `+∞`. -/
def densityAbove : Option ℚ → Option ℚ → Prop
  | none, none => False
  | none, some _ => True
  | some _, none => False
  | some x, some y => y < x

/-- The processing order claimed by the spec for the scheduler: density
descending, then duration ascending, then order identifier ascending. -/
def specJobOrder (a b : Job) : Prop :=
  densityAbove (density a) (density b) ∨
    (density a = density b ∧
      (a.duration_s < b.duration_s ∨
        (a.duration_s = b.duration_s ∧ a.order_number ≤ b.order_number)))

/-- Postcondition of a successful `try_augment line` call: the dict is
untouched on `seen` employees, gains exactly one newly matched employee, its
value multiset gains exactly one copy of `line`, and every binding is an old
binding or a graph edge. -/
def AugSuccess (adj : Line → List Emp) (line : Line) (m m' : List (Emp × Line))
    (seen : List Emp) : Prop :=
  (∀ e ∈ seen, List.lookup e m' = List.lookup e m) ∧
  (m'.map Prod.snd).Perm (line :: m.map Prod.snd) ∧
  (∃ ep, ep ∉ m.map Prod.fst ∧ (m'.map Prod.fst).Perm (ep :: m.map Prod.fst)) ∧
  (∀ p ∈ m', p ∈ m ∨ p.1 ∈ adj p.2)

/-- The closure certificate of a failed augmenting search: every employee
seen during the failed search (beyond those already seen on entry) is matched,
and all neighbours of its matched line were seen as well. -/
def SeenClosure (adj : Line → List Emp) (m : List (Emp × Line))
    (seen sOut : List Emp) : Prop :=
  ∀ e ∈ sOut, e ∉ seen →
    ∃ l0, List.lookup e m = some l0 ∧ ∀ e2 ∈ adj l0, e2 ∈ sOut

/-- Postcondition of a failed `try_augment line` call: state unchanged, the
seen set only grew, stayed duplicate-free, covers all neighbours of `line`,
and is closed in the sense of `SeenClosure`. -/
def AugFail (adj : Line → List Emp) (line : Line) (m m' : List (Emp × Line))
    (seen sOut : List Emp) : Prop :=
  m' = m ∧ seen ⊆ sOut ∧ sOut.Nodup ∧ (∀ e ∈ adj line, e ∈ sOut) ∧
    SeenClosure adj m seen sOut

/-- Full postcondition of one `try_augment` call, by result flag. -/
def AugSpec (adj : Line → List Emp) (line : Line) (m : List (Emp × Line)) (seen : List Emp)
    (r : Bool × List (Emp × Line) × List Emp) : Prop :=
  (r.1 = true → AugSuccess adj line m r.2.1 seen) ∧
  (r.1 = false → AugFail adj line m r.2.1 seen r.2.2)

/-- Invariant of the Kuhn loop after processing the lines of `L`: the dict is
a matching whose edges lie in the graph restricted to `L`, of maximum
cardinality there. -/
def KuhnInv (adj : Line → List Emp) (L : List Line) (m : List (Emp × Line)) : Prop :=
  (m.map Prod.fst).Nodup ∧ (m.map Prod.snd).Nodup ∧
  (∀ p ∈ m, p.2 ∈ L ∧ p.1 ∈ adj p.2) ∧
  (∀ P, matchingOn adj L P → P.length ≤ m.length)

/-- What a non-inherited member of a `backtrack` result set looks like: the
normalized form of `cur` extended by pairs drawn from the remaining lines,
with fresh employees, reaching total size `M`. -/
def BtSound (adj : Line → List Emp) (M : Nat) (rem : List Line) (used : List Emp)
    (cur : List (Line × Emp)) (r : List (Line × Emp)) : Prop :=
  ∃ ext : List (Line × Emp),
    r = sortPairs (cur ++ ext) ∧ (cur ++ ext).length = M ∧
    (ext.map Prod.fst).Nodup ∧ (ext.map Prod.snd).Nodup ∧
    ∀ p ∈ ext, p.1 ∈ rem ∧ p.2 ∈ adj p.1 ∧ p.2 ∉ used

/-- Removal of the first occurrence of a pair, used to realign a matching
with the enumerator's line order. -/
def eraseFirst : List (Line × Emp) → (Line × Emp) → List (Line × Emp)
  | [], _ => []
  | q :: rest, p => if q = p then rest else q :: eraseFirst rest p

/-! ## Generic list lemmas -/

theorem foldr_max_le {l : List Nat} {x : Nat} (hx : x ∈ l) : x ≤ l.foldr max 0 := by
  induction l with
  | nil => cases hx
  | cons a t ih =>
      rcases List.mem_cons.mp hx with h | h
      · subst h; exact le_max_left _ _
      · exact le_trans (ih h) (le_max_right _ _)

theorem foldr_max_attained (l : List Nat) : l.foldr max 0 = 0 ∨ l.foldr max 0 ∈ l := by
  induction l with
  | nil => exact Or.inl rfl
  | cons a t ih =>
      rcases le_or_lt (t.foldr max 0) a with h | h
      · right; simp [max_eq_left h]
      · rcases ih with h0 | hm
        · omega
        · right; rw [List.foldr_cons, max_eq_right (le_of_lt h)]; exact List.mem_cons_of_mem _ hm

theorem filter_length_lt {U seen : List Emp} {e : Emp} (heU : e ∈ U) (hes : e ∉ seen) :
    (U.filter (fun x => decide (x ∉ e :: seen))).length <
      (U.filter (fun x => decide (x ∉ seen))).length := by
  have hsub : (U.filter (fun x => decide (x ∉ e :: seen))).Sublist
      (U.filter (fun x => decide (x ∉ seen))) := by
    apply List.monotone_filter_right
    intro a ha
    simp only [decide_eq_true_eq, List.mem_cons, not_or] at ha ⊢
    exact ha.2
  rcases lt_or_eq_of_le hsub.length_le with h | h
  · exact h
  · exfalso
    have heq := hsub.eq_of_length h
    have h1 : e ∈ U.filter (fun x => decide (x ∉ seen)) :=
      List.mem_filter.mpr ⟨heU, by simpa using hes⟩
    rw [← heq] at h1
    have := List.mem_filter.mp h1
    simp at this
  
theorem filter_length_mono {U : List Emp} {s t : List Emp} (hst : s ⊆ t) :
    (U.filter (fun x => decide (x ∉ t))).length ≤ (U.filter (fun x => decide (x ∉ s))).length := by
  apply List.Sublist.length_le
  apply List.monotone_filter_right
  intro a ha
  simp only [decide_eq_true_eq] at ha ⊢
  exact fun hmem => ha (hst hmem)

/-! ## Scorer lemmas -/

theorem score_foldl_acc (p : POrder → Bool) (orders : List POrder) : ∀ a : Int,
    orders.foldl (fun total po => if p po then total + po.quantity else total) a
      = a + ((orders.filter p).map POrder.quantity).sum := by
  induction orders with
  | nil => intro a; simp
  | cons po rest ih =>
      intro a
      by_cases hp : p po = true
      · simp [hp, ih, add_assoc]
      · simp only [Bool.not_eq_true] at hp
        simp [hp, ih]

theorem score_eq_sum (combo : List Line) (orders : List POrder) (mats : List Material) :
    score_assignment_quantity combo orders mats
      = ((orders.filter (fun po =>
          combo.any (fun l => (mat_to_lines mats po.material_number).contains l))).map
            POrder.quantity).sum := by
  unfold score_assignment_quantity
  rw [score_foldl_acc]
  simp

theorem sum_filter_mono (p q : POrder → Bool) (orders : List POrder)
    (hpq : ∀ po ∈ orders, p po = true → q po = true)
    (hq : ∀ po ∈ orders, 0 ≤ po.quantity) :
    ((orders.filter p).map POrder.quantity).sum ≤ ((orders.filter q).map POrder.quantity).sum := by
  induction orders with
  | nil => simp
  | cons po rest ih =>
      have ih' := ih (fun o ho => hpq o (List.mem_cons_of_mem _ ho))
        (fun o ho => hq o (List.mem_cons_of_mem _ ho))
      by_cases hp : p po = true
      · have hqpo := hpq po (List.mem_cons_self _ _) hp
        simp [hp, hqpo, ih']
      · simp only [Bool.not_eq_true] at hp
        by_cases hq2 : q po = true
        · have h0 : 0 ≤ po.quantity := hq po (List.mem_cons_self _ _)
          simp [List.filter_cons, hp, hq2]
          omega
        · simp only [Bool.not_eq_true] at hq2
          simp [hp, hq2, ih']

theorem mat_to_lines_missing {mats : List Material} {k : Nat}
    (h : ∀ m ∈ mats, m.material_number ≠ k) : mat_to_lines mats k = [] := by
  unfold mat_to_lines
  have : mats.reverse.find? (fun m => m.material_number == k) = none := by
    apply List.find?_eq_none.mpr
    intro m hm
    simp only [beq_iff_eq]
    exact h m (List.mem_reverse.mp hm)
  rw [this]

/-! ## The scan implementing Python's `max(..., key=...)` -/

theorem max_scan_mem {α : Type} (gt : α → α → Bool) (c : α) (cs : List α) :
    cs.foldl (fun b x => if gt x b then x else b) c ∈ c :: cs := by
  induction cs generalizing c with
  | nil => simp
  | cons x rest ih =>
      simp only [List.foldl_cons]
      rcases List.mem_cons.mp (ih (if gt x c then x else c)) with h | h
      · rw [h]; by_cases hgt : gt x c = true <;> simp [hgt]
      · exact List.mem_cons_of_mem _ (List.mem_cons_of_mem _ h)

theorem max_scan_beats {α : Type} (gt : α → α → Bool)
    (htrans : ∀ a b c, gt a b = true → gt b c = true → gt a c = true) (c : α) (cs : List α) :
    cs.foldl (fun b x => if gt x b then x else b) c = c ∨
      gt (cs.foldl (fun b x => if gt x b then x else b) c) c = true := by
  induction cs generalizing c with
  | nil => exact Or.inl rfl
  | cons x rest ih =>
      simp only [List.foldl_cons]
      by_cases hgt : gt x c = true
      · rw [if_pos hgt]
        rcases ih x with h | h
        · right; rw [h]; exact hgt
        · right; exact htrans _ _ _ h hgt
      · rw [if_neg hgt]; exact ih c

theorem max_scan_not_gt {α : Type} (gt : α → α → Bool)
    (htrans : ∀ a b c, gt a b = true → gt b c = true → gt a c = true)
    (hasym : ∀ a b, gt a b = true → gt b a = false) (c : α) (cs : List α) :
    ∀ x ∈ c :: cs, gt x (cs.foldl (fun b y => if gt y b then y else b) c) = false := by
  have hirr : ∀ a, gt a a = false := by
    intro a; cases h : gt a a
    · rfl
    · rw [← h]; exact hasym a a h
  induction cs generalizing c with
  | nil =>
      intro x hx
      simp only [List.mem_singleton] at hx
      subst hx; simpa using hirr x
  | cons y rest ih =>
      intro x hx
      simp only [List.foldl_cons]
      by_cases hgt : gt y c = true
      · rw [if_pos hgt]
        rcases List.mem_cons.mp hx with rfl | hx'
        · -- x = c, which was beaten by y
          have hyr : gt y (rest.foldl (fun b z => if gt z b then z else b) y) = false :=
            ih y y (List.mem_cons_self _ _)
          cases hres : gt x (rest.foldl (fun b z => if gt z b then z else b) y)
          · rfl
          · exfalso
            rcases max_scan_beats gt htrans y rest with h | h
            · rw [h] at hres
              have := hasym _ _ hgt
              rw [hres] at this; cases this
            · have := htrans _ _ _ hres h
              have h2 := hasym _ _ hgt
              rw [this] at h2; cases h2
        · exact ih y x hx'
      · rw [if_neg hgt]
        rcases List.mem_cons.mp hx with rfl | hx'
        · exact ih x x (List.mem_cons_self _ _)
        · rcases List.mem_cons.mp hx' with rfl | hx''
          · -- x = y, which failed to beat c
            cases hres : gt x (rest.foldl (fun b z => if gt z b then z else b) c)
            · rfl
            · exfalso
              rcases max_scan_beats gt htrans c rest with h | h
              · rw [h] at hres; exact hgt hres
              · exact hgt (htrans _ _ _ hres h)
          · exact ih c x (List.mem_cons_of_mem _ hx'')

theorem lineKeyGT_trans (L : Int) (u : Line → Int) :
    ∀ a b c, lineKeyGT L u a b = true → lineKeyGT L u b c = true → lineKeyGT L u a c = true := by
  intro a b c hab hbc
  simp only [lineKeyGT, Bool.or_eq_true, Bool.and_eq_true, decide_eq_true_eq,
    Nat.blt_eq] at hab hbc ⊢
  omega

theorem lineKeyGT_asym (L : Int) (u : Line → Int) :
    ∀ a b, lineKeyGT L u a b = true → lineKeyGT L u b a = false := by
  intro a b hab
  cases hba : lineKeyGT L u b a
  · rfl
  · exfalso
    simp only [lineKeyGT, Bool.or_eq_true, Bool.and_eq_true, decide_eq_true_eq,
      Nat.blt_eq] at hab hba
    omega

theorem choose_best_line_spec {L : Int} {u : Line → Int} {c : Line} {cs : List Line} :
    ∃ b, choose_best_line L u (c :: cs) = some b ∧ b ∈ c :: cs ∧
      ∀ x ∈ c :: cs, L - u x < L - u b ∨ (L - u x = L - u b ∧ x ≤ b) := by
  set r := cs.foldl (fun b x => if lineKeyGT L u x b then x else b) c with hr
  have h0 : choose_best_line L u (c :: cs) = some r := rfl
  have hmem : r ∈ c :: cs := max_scan_mem _ c cs
  have hngtAll : ∀ x ∈ c :: cs, lineKeyGT L u x r = false := by
    intro x hx
    have := max_scan_not_gt (lineKeyGT L u) (lineKeyGT_trans L u) (lineKeyGT_asym L u) c cs x hx
    rw [← hr] at this
    exact this
  clear_value r
  refine ⟨r, h0, hmem, ?_⟩
  intro x hx
  have hngt := hngtAll x hx
  have hprop : ¬ (L - u r < L - u x ∨
      (L - u x = L - u r ∧ (-(u r) < -(u x) ∨ (-(u x) = -(u r) ∧ r < x)))) := by
    intro hcontra
    have : lineKeyGT L u x r = true := by
      simp only [lineKeyGT, Bool.or_eq_true, Bool.and_eq_true, decide_eq_true_eq, Nat.blt_eq]
      tauto
    rw [this] at hngt; cases hngt
  by_cases hlt : L - u x < L - u r
  · exact Or.inl hlt
  · have h1 : ¬ (L - u r < L - u x) := fun h => hprop (Or.inl h)
    have heq : L - u x = L - u r := by omega
    have hu : u x = u r := by omega
    have h2 : ¬ r < x := fun hrx => hprop (Or.inr ⟨heq, Or.inr ⟨by rw [hu], hrx⟩⟩)
    exact Or.inr ⟨heq, Nat.le_of_not_lt h2⟩

/-! ## Scheduler fold lemmas -/

theorem with_starts_append (s : Int) (l1 l2 : List Job) : ∀ u : Int,
    with_starts s (l1 ++ l2) u
      = with_starts s l1 u ++ with_starts s l2 (u + sum_durations l1) := by
  induction l1 with
  | nil => intro u; simp [with_starts, sum_durations]
  | cons j rest ih =>
      intro u
      show (j.order_number, s + u) :: with_starts s (rest ++ l2) (u + j.duration_s)
          = (j.order_number, s + u) :: (with_starts s rest (u + j.duration_s)
              ++ with_starts s l2 (u + sum_durations (j :: rest)))
      rw [ih (u + j.duration_s)]
      have harith : u + j.duration_s + sum_durations rest = u + sum_durations (j :: rest) := by
        simp [sum_durations]
        ring
      rw [harith]

theorem sum_durations_append (l1 l2 : List Job) :
    sum_durations (l1 ++ l2) = sum_durations l1 + sum_durations l2 := by
  simp [sum_durations]

theorem schedule_step_cases (s L : Int) (st : SchedState) (job : Job) :
    (schedule_step s L st job = st ∧
      job.eligible_lines.filter (fun ln => decide (st.used ln + job.duration_s ≤ L)) = []) ∨
    ∃ b, b ∈ job.eligible_lines ∧ st.used b + job.duration_s ≤ L ∧
      schedule_step s L st job =
        ⟨fun ln => if ln = b then st.used ln + job.duration_s else st.used ln,
         fun ln => if ln = b then st.seq ln ++ [(job.order_number, s + st.used b)]
           else st.seq ln⟩ := by
  unfold schedule_step
  cases hc : job.eligible_lines.filter (fun ln => decide (st.used ln + job.duration_s ≤ L)) with
  | nil => left; exact ⟨by simp [choose_best_line], rfl⟩
  | cons c cs =>
      right
      obtain ⟨b, hb, hbmem, _⟩ := @choose_best_line_spec L st.used c cs
      have hbf : b ∈ job.eligible_lines.filter
          (fun ln => decide (st.used ln + job.duration_s ≤ L)) := by rw [hc]; exact hbmem
      refine ⟨b, (List.mem_filter.mp hbf).1, by simpa using (List.mem_filter.mp hbf).2, ?_⟩
      simp only [hb]

/-- Preservation of an arbitrary per-entry predicate through the scheduler
fold: any entry of a final sequence is an initial entry or was placed from a
job on one of its eligible lines. -/
theorem sched_entries (s L : Int) (Q : Line → Nat × Int → Prop) :
    ∀ (jobs : List Job) (st : SchedState),
    (∀ ln, ∀ ent ∈ st.seq ln, Q ln ent) →
    (∀ j ∈ jobs, ∀ ln ∈ j.eligible_lines, ∀ start : Int, Q ln (j.order_number, start)) →
    ∀ ln, ∀ ent ∈ (jobs.foldl (schedule_step s L) st).seq ln, Q ln ent := by
  intro jobs
  induction jobs with
  | nil => intro st hst _ ln ent hent; exact hst ln ent hent
  | cons j rest ih =>
      intro st hst hjobs ln ent hent
      rw [List.foldl_cons] at hent
      rcases schedule_step_cases s L st j with ⟨heq, _⟩ | ⟨b, hbel, _, heq⟩
      · rw [heq] at hent
        exact ih st hst (fun j' hj' => hjobs j' (List.mem_cons_of_mem _ hj')) ln ent hent
      · rw [heq] at hent
        refine ih _ ?_ (fun j' hj' => hjobs j' (List.mem_cons_of_mem _ hj')) ln ent hent
        intro ln' ent' hent'
        by_cases hln : ln' = b
        · subst hln
          simp only [if_pos rfl] at hent'
          rcases List.mem_append.mp hent' with h | h
          · exact hst ln' ent' h
          · simp only [List.mem_singleton] at h
            subst h
            exact hjobs j (List.mem_cons_self _ _) ln' hbel _
        · simp only [if_neg hln] at hent'
          exact hst ln' ent' hent'

/-- The per-line placement representation carried through the scheduler fold:
each line's sequence is its placed jobs with cumulative start stamps, the
used-time is their total duration and it never exceeds the shift length. -/
theorem sched_pointwise (s L : Int) :
    ∀ (jobs : List Job) (st : SchedState) (pl : Line → List Job),
    (∀ ln, st.seq ln = with_starts s (pl ln) 0) →
    (∀ ln, st.used ln = sum_durations (pl ln)) →
    (∀ ln, st.used ln ≤ L) →
    ∃ pl2 : Line → List Job,
      (∀ ln, (jobs.foldl (schedule_step s L) st).seq ln = with_starts s (pl2 ln) 0) ∧
      (∀ ln, (jobs.foldl (schedule_step s L) st).used ln = sum_durations (pl2 ln)) ∧
      (∀ ln, (jobs.foldl (schedule_step s L) st).used ln ≤ L) ∧
      (∀ ln, ∃ add, pl2 ln = pl ln ++ add ∧
        ∀ j ∈ add, ln ∈ j.eligible_lines ∧ j ∈ jobs) := by
  intro jobs
  induction jobs with
  | nil =>
      intro st pl hseq hused hle
      exact ⟨pl, hseq, hused, hle, fun ln => ⟨[], by simp, by simp⟩⟩
  | cons j rest ih =>
      intro st pl hseq hused hle
      rw [List.foldl_cons]
      rcases schedule_step_cases s L st j with ⟨heq, _⟩ | ⟨b, hbel, hbcap, heq⟩
      · rw [heq]
        obtain ⟨pl2, h1, h2, h3, h4⟩ := ih st pl hseq hused hle
        refine ⟨pl2, h1, h2, h3, fun ln => ?_⟩
        obtain ⟨add, ha1, ha2⟩ := h4 ln
        exact ⟨add, ha1, fun j' hj' => ⟨(ha2 j' hj').1,
          List.mem_cons_of_mem _ (ha2 j' hj').2⟩⟩
      · rw [heq]
        have hseq' : ∀ ln,
            (if ln = b then st.seq ln ++ [(j.order_number, s + st.used b)] else st.seq ln)
              = with_starts s (if ln = b then pl ln ++ [j] else pl ln) 0 := by
          intro ln
          by_cases hln : ln = b
          · simp [hln, with_starts_append, hseq b, hused b, with_starts]
          · simp only [if_neg hln]
            exact hseq ln
        have hused' : ∀ ln,
            (if ln = b then st.used ln + j.duration_s else st.used ln)
              = sum_durations (if ln = b then pl ln ++ [j] else pl ln) := by
          intro ln
          by_cases hln : ln = b
          · simp [hln, hused b, sum_durations_append, sum_durations]
          · simp only [if_neg hln]
            exact hused ln
        have hle' : ∀ ln,
            (if ln = b then st.used ln + j.duration_s else st.used ln) ≤ L := by
          intro ln
          by_cases hln : ln = b
          · simpa [hln] using hbcap
          · simp only [if_neg hln]
            exact hle ln
        obtain ⟨pl2, h1, h2, h3, h4⟩ :=
          ih ⟨fun ln => if ln = b then st.used ln + j.duration_s else st.used ln,
              fun ln => if ln = b then st.seq ln ++ [(j.order_number, s + st.used b)]
                else st.seq ln⟩
            (fun ln => if ln = b then pl ln ++ [j] else pl ln) hseq' hused' hle'
        refine ⟨pl2, h1, h2, h3, fun ln => ?_⟩
        obtain ⟨add, ha1, ha2⟩ := h4 ln
        by_cases hln : ln = b
        · refine ⟨j :: add, ?_, ?_⟩
          · subst hln
            simp [ha1]
          · intro j' hj'
            rcases List.mem_cons.mp hj' with rfl | hj''
            · exact ⟨hln ▸ hbel, List.mem_cons_self _ _⟩
            · exact ⟨(ha2 j' hj'').1, List.mem_cons_of_mem _ (ha2 j' hj'').2⟩
        · refine ⟨add, ?_, fun j' hj' => ⟨(ha2 j' hj').1,
            List.mem_cons_of_mem _ (ha2 j' hj').2⟩⟩
          rw [ha1, if_neg hln]

/-- Appending one element to the image of a member of a duplicate-free index
list shifts the concatenation by exactly that element, up to permutation. -/
theorem flatten_update_perm {α : Type} (avail : List Line) (hA : avail.Nodup) (b : Line)
    (hb : b ∈ avail) (g : Line → List α) (x : α) :
    ((avail.map (fun ln => if ln = b then g ln ++ [x] else g ln)).flatten).Perm
      ((avail.map g).flatten ++ [x]) := by
  induction avail with
  | nil => cases hb
  | cons a rest ih =>
      by_cases hab : a = b
      · subst hab
        have hnotin : a ∉ rest := (List.nodup_cons.mp hA).1
        have hrest : rest.map (fun ln => if ln = a then g ln ++ [x] else g ln) = rest.map g := by
          apply List.map_congr_left
          intro ln hln
          have hne : ln ≠ a := by intro h; subst h; exact hnotin hln
          rw [if_neg hne]
        have hredp : (if a = a then g a ++ [x] else g a) = g a ++ [x] := if_pos rfl
        simp only [List.map_cons, List.flatten_cons, hrest, hredp, ite_true, if_true]
        simp only [List.append_assoc]
        exact List.Perm.append_left _ List.perm_append_comm
      · have hb' : b ∈ rest := by
          rcases List.mem_cons.mp hb with h | h
          · exact absurd h.symm hab
          · exact h
        have ih' := ih (List.nodup_cons.mp hA).2 hb'
        simp only [List.map_cons, List.flatten_cons, if_neg hab]
        rw [List.append_assoc]
        exact List.Perm.append_left _ ih'

/-- Across the whole scheduler fold, the multiset of placed order identifiers
grows by a sub-multiset of the processed jobs' identifiers. -/
theorem sched_ids (s L : Int) (avail : List Line) (hA : avail.Nodup) :
    ∀ (jobs : List Job) (st : SchedState),
    (∀ j ∈ jobs, ∀ ln ∈ j.eligible_lines, ln ∈ avail) →
    ((avail.map (fun ln => ((jobs.foldl (schedule_step s L) st).seq ln).map Prod.fst)).flatten).Subperm
      (((avail.map (fun ln => (st.seq ln).map Prod.fst)).flatten) ++ jobs.map Job.order_number) := by
  intro jobs
  induction jobs with
  | nil => intro st _; simpa using List.Subperm.refl _
  | cons j rest ih =>
      intro st helig
      rw [List.foldl_cons]
      rcases schedule_step_cases s L st j with ⟨heq, _⟩ | ⟨b, hbel, _, heq⟩
      · rw [heq]
        have h1 := ih st (fun j' hj' => helig j' (List.mem_cons_of_mem _ hj'))
        refine h1.trans (List.Sublist.subperm ?_)
        exact List.Sublist.append_left
          (List.sublist_cons_self j.order_number (rest.map Job.order_number)) _
      · rw [heq]
        have h1 := ih
          ⟨fun ln => if ln = b then st.used ln + j.duration_s else st.used ln,
           fun ln => if ln = b then st.seq ln ++ [(j.order_number, s + st.used b)]
             else st.seq ln⟩
          (fun j' hj' => helig j' (List.mem_cons_of_mem _ hj'))
        refine h1.trans (List.Perm.subperm ?_)
        have hmapeq : (avail.map (fun ln =>
            ((if ln = b then st.seq ln ++ [(j.order_number, s + st.used b)]
              else st.seq ln)).map Prod.fst))
          = avail.map (fun ln => if ln = b then ((st.seq ln).map Prod.fst) ++ [j.order_number]
              else (st.seq ln).map Prod.fst) := by
          apply List.map_congr_left
          intro ln _
          by_cases hln : ln = b
          · simp [hln]
          · simp [hln]
        have hperm := flatten_update_perm avail hA b (helig j (List.mem_cons_self _ _) b hbel)
          (fun ln => (st.seq ln).map Prod.fst) j.order_number
        rw [hmapeq]
        refine (List.Perm.append_right _ hperm).trans ?_
        simp [List.append_assoc]

/-! ## The scheduler's sort order -/

theorem densGT_iff (a b : Job) : densGT a b = true ↔
    ((0 < b.tpu ∧ ¬ 0 < a.tpu) ∨ (0 < a.tpu ∧ 0 < b.tpu ∧ a.tpu < b.tpu)) := by
  simp [densGT, Bool.and_eq_true, Bool.or_eq_true, decide_eq_true_eq, Bool.not_eq_true',
    decide_eq_false_iff_not, and_assoc]

theorem densEQ_iff (a b : Job) : densEQ a b = true ↔
    ((¬ 0 < a.tpu ∧ ¬ 0 < b.tpu) ∨ (0 < a.tpu ∧ 0 < b.tpu ∧ a.tpu = b.tpu)) := by
  simp [densEQ, Bool.and_eq_true, Bool.or_eq_true, decide_eq_true_eq, Bool.not_eq_true',
    decide_eq_false_iff_not, and_assoc]

theorem densGT_trans {a b c : Job} (hab : densGT a b = true) (hbc : densGT b c = true) :
    densGT a c = true := by
  rw [densGT_iff] at hab hbc ⊢
  rcases hab with ⟨h1, h2⟩ | ⟨h1, h2, h3⟩ <;> rcases hbc with ⟨g1, g2⟩ | ⟨g1, g2, g3⟩
  · exact absurd h1 g2
  · exact Or.inl ⟨g2, h2⟩
  · exact absurd h2 g2
  · exact Or.inr ⟨h1, g2, lt_trans h3 g3⟩

theorem densGT_densEQ_trans {a b c : Job} (hab : densGT a b = true) (hbc : densEQ b c = true) :
    densGT a c = true := by
  rw [densGT_iff] at hab ⊢
  rw [densEQ_iff] at hbc
  rcases hab with ⟨h1, h2⟩ | ⟨h1, h2, h3⟩ <;> rcases hbc with ⟨g1, g2⟩ | ⟨g1, g2, g3⟩
  · exact absurd h1 g1
  · exact Or.inl ⟨g2, h2⟩
  · exact absurd h2 g1
  · exact Or.inr ⟨h1, g2, g3 ▸ h3⟩

theorem densEQ_densGT_trans {a b c : Job} (hab : densEQ a b = true) (hbc : densGT b c = true) :
    densGT a c = true := by
  rw [densGT_iff] at hbc ⊢
  rw [densEQ_iff] at hab
  rcases hab with ⟨h1, h2⟩ | ⟨h1, h2, h3⟩ <;> rcases hbc with ⟨g1, g2⟩ | ⟨g1, g2, g3⟩
  · exact Or.inl ⟨g1, h1⟩
  · exact absurd g1 h2
  · exact absurd h2 g2
  · exact Or.inr ⟨h1, g2, h3 ▸ g3⟩

theorem densEQ_trans {a b c : Job} (hab : densEQ a b = true) (hbc : densEQ b c = true) :
    densEQ a c = true := by
  rw [densEQ_iff] at hab hbc ⊢
  rcases hab with ⟨h1, h2⟩ | ⟨h1, h2, h3⟩ <;> rcases hbc with ⟨g1, g2⟩ | ⟨g1, g2, g3⟩
  · exact Or.inl ⟨h1, g2⟩
  · exact absurd g1 h2
  · exact absurd h2 g1
  · exact Or.inr ⟨h1, g2, h3.trans g3⟩

theorem dens_trichotomy (a b : Job) :
    densGT a b = true ∨ densEQ a b = true ∨ densGT b a = true := by
  rw [densGT_iff, densEQ_iff, densGT_iff]
  by_cases ha : 0 < a.tpu <;> by_cases hb : 0 < b.tpu
  · rcases lt_trichotomy a.tpu b.tpu with h | h | h
    · exact Or.inl (Or.inr ⟨ha, hb, h⟩)
    · exact Or.inr (Or.inl (Or.inr ⟨ha, hb, h⟩))
    · exact Or.inr (Or.inr (Or.inr ⟨hb, ha, h⟩))
  · exact Or.inr (Or.inr (Or.inl ⟨ha, hb⟩))
  · exact Or.inl (Or.inl ⟨hb, ha⟩)
  · exact Or.inr (Or.inl (Or.inl ⟨ha, hb⟩))

theorem jobLE_iff (a b : Job) : jobLE a b = true ↔
    (densGT a b = true ∨ (densEQ a b = true ∧
      (a.duration_s < b.duration_s ∨
        (a.duration_s = b.duration_s ∧ a.order_number ≤ b.order_number)))) := by
  simp [jobLE, Bool.or_eq_true, Bool.and_eq_true, decide_eq_true_eq, Nat.ble_eq]

theorem jobLE_trans (a b c : Job) (hab : jobLE a b = true) (hbc : jobLE b c = true) :
    jobLE a c = true := by
  rw [jobLE_iff] at hab hbc ⊢
  rcases hab with hgt | ⟨heq, hin⟩ <;> rcases hbc with hgt' | ⟨heq', hin'⟩
  · exact Or.inl (densGT_trans hgt hgt')
  · exact Or.inl (densGT_densEQ_trans hgt heq')
  · exact Or.inl (densEQ_densGT_trans heq hgt')
  · refine Or.inr ⟨densEQ_trans heq heq', ?_⟩
    omega

theorem densEQ_symm {a b : Job} (h : densEQ a b = true) : densEQ b a = true := by
  rw [densEQ_iff] at h ⊢
  tauto

theorem densGT_not_EQ {a b : Job} (h : densGT a b = true) : densEQ a b = false := by
  cases he : densEQ a b
  · rfl
  · rw [densGT_iff] at h
    rw [densEQ_iff] at he
    rcases h with ⟨h1, h2⟩ | ⟨h1, h2, h3⟩ <;> rcases he with ⟨g1, g2⟩ | ⟨g1, g2, g3⟩
    · exact absurd h1 g2
    · exact absurd h2 (fun _ => absurd g1 h2)
    · exact absurd h1 g1
    · exact absurd h3 (by rw [g3]; exact lt_irrefl _)

theorem jobLE_total (a b : Job) : (jobLE a b || jobLE b a) = true := by
  rw [Bool.or_eq_true, jobLE_iff, jobLE_iff]
  rcases dens_trichotomy a b with h | h | h
  · exact Or.inl (Or.inl h)
  · rcases Nat.le_total a.order_number b.order_number with hid | hid
    · rcases lt_trichotomy a.duration_s b.duration_s with hd | hd | hd
      · exact Or.inl (Or.inr ⟨h, Or.inl hd⟩)
      · exact Or.inl (Or.inr ⟨h, Or.inr ⟨hd, hid⟩⟩)
      · exact Or.inr (Or.inr ⟨densEQ_symm h, Or.inl hd⟩)
    · rcases lt_trichotomy a.duration_s b.duration_s with hd | hd | hd
      · exact Or.inl (Or.inr ⟨h, Or.inl hd⟩)
      · exact Or.inr (Or.inr ⟨densEQ_symm h, Or.inr ⟨hd.symm, hid⟩⟩)
      · exact Or.inr (Or.inr ⟨densEQ_symm h, Or.inl hd⟩)
  · exact Or.inr (Or.inl h)

theorem sorted_jobs_perm (avail : List Line) (mats : List Material) (orders : List POrder) :
    (sorted_jobs avail mats orders).Perm (enrich avail mats orders) :=
  List.perm_insertionSort _ _

theorem sorted_jobs_sorted (avail : List Line) (mats : List Material) (orders : List POrder) :
    List.Pairwise (fun a b => jobLE a b = true) (sorted_jobs avail mats orders) :=
  @List.sorted_insertionSort Job (fun a b => jobLE a b = true) _
    ⟨fun a b => (Bool.or_eq_true _ _).mp (jobLE_total a b)⟩
    ⟨fun a b c hab hbc => jobLE_trans a b c hab hbc⟩
    (enrich avail mats orders)

theorem densityAbove_iff_densGT (a b : Job) :
    densityAbove (density a) (density b) ↔ densGT a b = true := by
  rw [densGT_iff]
  unfold density densityAbove
  by_cases ha : 0 < a.tpu <;> by_cases hb : 0 < b.tpu <;> simp [ha, hb]
  rw [← one_div, ← one_div]
  exact one_div_lt_one_div hb ha

theorem density_eq_iff_densEQ (a b : Job) :
    density a = density b ↔ densEQ a b = true := by
  rw [densEQ_iff]
  unfold density
  by_cases ha : 0 < a.tpu <;> by_cases hb : 0 < b.tpu <;> simp [ha, hb]

theorem jobLE_iff_specJobOrder (a b : Job) : jobLE a b = true ↔ specJobOrder a b := by
  rw [jobLE_iff]
  unfold specJobOrder
  rw [densityAbove_iff_densGT, density_eq_iff_densEQ]

/-! ## Enrichment and top-level scheduler facts -/

theorem mem_sortNats {x : Nat} {l : List Nat} : x ∈ sortNats l ↔ x ∈ l :=
  (List.perm_insertionSort _ l).mem_iff

theorem mem_eligible_lines {l : Line} {avail : List Line} {mats : List Material} {po : POrder} :
    l ∈ eligible_lines_for_order avail mats po ↔
      l ∈ avail ∧ l ∈ mat_to_lines mats po.material_number := by
  unfold eligible_lines_for_order
  rw [mem_sortNats, List.mem_dedup, List.mem_filter]
  simp [List.elem_iff]

theorem mem_enrich {j : Job} {avail : List Line} {mats : List Material} {orders : List POrder}
    (hj : j ∈ enrich avail mats orders) :
    ∃ po ∈ orders, po.order_number = j.order_number ∧
      po.material_number = j.material_number ∧
      j.eligible_lines = eligible_lines_for_order avail mats po ∧
      j.duration_s = ratTrunc ((po.quantity : ℚ) * po.time_to_complete) ∧
      j.tpu = po.time_to_complete := by
  unfold enrich at hj
  obtain ⟨po, hpo, hf⟩ := List.mem_filterMap.mp hj
  by_cases he : eligible_lines_for_order avail mats po = []
  · rw [if_pos he] at hf; cases hf
  · rw [if_neg he] at hf
    obtain rfl := Option.some.inj hf
    exact ⟨po, hpo, rfl, rfl, rfl, rfl, rfl⟩

theorem enrich_ids_sublist (avail : List Line) (mats : List Material) (orders : List POrder) :
    ((enrich avail mats orders).map Job.order_number).Sublist
      (orders.map POrder.order_number) := by
  induction orders with
  | nil => simp [enrich]
  | cons po rest ih =>
      unfold enrich at ih ⊢
      rw [List.filterMap_cons]
      by_cases he : eligible_lines_for_order avail mats po = []
      · rw [if_pos he]
        exact ih.trans (List.sublist_cons_self _ _)
      · rw [if_neg he]
        simp only [List.map_cons]
        exact ih.cons₂ _

theorem sched_top_entries (avail : List Line) (orders : List POrder) (mats : List Material)
    (s L : Int) :
    ∀ p ∈ schedule_orders_greedy_nosplit avail orders mats s L, ∀ ent ∈ p.2,
      ∃ po ∈ orders, po.order_number = ent.1 ∧ p.1 ∈ avail ∧
        p.1 ∈ mat_to_lines mats po.material_number := by
  intro p hp ent hent
  unfold schedule_orders_greedy_nosplit at hp
  by_cases hcond : L ≤ 0 ∨ avail = []
  · rw [if_pos hcond] at hp
    obtain ⟨ln, _, rfl⟩ := List.mem_map.mp hp
    cases hent
  · rw [if_neg hcond] at hp
    obtain ⟨ln, hln, rfl⟩ := List.mem_map.mp hp
    refine sched_entries s L
      (fun ln2 ent2 => ∃ po ∈ orders, po.order_number = ent2.1 ∧ ln2 ∈ avail ∧
        ln2 ∈ mat_to_lines mats po.material_number)
      (sorted_jobs avail mats orders) ⟨fun _ => 0, fun _ => []⟩
      (by intro ln2 ent2 h2; cases h2) ?_ ln ent hent
    intro j hj ln2 hln2 start
    have hj' : j ∈ enrich avail mats orders := (sorted_jobs_perm avail mats orders).mem_iff.mp hj
    obtain ⟨po, hpo, hnum, _, helig, _, _⟩ := mem_enrich hj'
    rw [helig] at hln2
    obtain ⟨h1, h2⟩ := mem_eligible_lines.mp hln2
    exact ⟨po, hpo, hnum, h1, h2⟩

theorem sched_top_capacity (avail : List Line) (orders : List POrder) (mats : List Material)
    (s L : Int) (hL : 0 ≤ L) :
    ∀ p ∈ schedule_orders_greedy_nosplit avail orders mats s L,
      ∃ jobs : List Job, (∀ j ∈ jobs, j ∈ enrich avail mats orders ∧ p.1 ∈ j.eligible_lines) ∧
        p.2 = with_starts s jobs 0 ∧ sum_durations jobs ≤ L := by
  intro p hp
  unfold schedule_orders_greedy_nosplit at hp
  by_cases hcond : L ≤ 0 ∨ avail = []
  · rw [if_pos hcond] at hp
    obtain ⟨ln, _, rfl⟩ := List.mem_map.mp hp
    exact ⟨[], by simp, rfl, by simpa [sum_durations] using hL⟩
  · rw [if_neg hcond] at hp
    obtain ⟨ln, hln, rfl⟩ := List.mem_map.mp hp
    obtain ⟨pl2, h1, h2, h3, h4⟩ := sched_pointwise s L (sorted_jobs avail mats orders)
      ⟨fun _ => 0, fun _ => []⟩ (fun _ => []) (fun _ => rfl) (fun _ => by simp [sum_durations])
      (fun _ => hL)
    refine ⟨pl2 ln, ?_, h1 ln, by rw [← h2 ln]; exact h3 ln⟩
    intro j hj
    obtain ⟨add, ha1, ha2⟩ := h4 ln
    rw [ha1] at hj
    simp only [List.nil_append] at hj
    obtain ⟨hel, hmem⟩ := ha2 j hj
    exact ⟨(sorted_jobs_perm avail mats orders).mem_iff.mp hmem, hel⟩

theorem sched_top_ids_nodup (avail : List Line) (orders : List POrder) (mats : List Material)
    (s L : Int) (hA : avail.Nodup) (hids : (orders.map POrder.order_number).Nodup) :
    (((schedule_orders_greedy_nosplit avail orders mats s L).map
      (fun p => p.2.map Prod.fst)).flatten).Nodup := by
  unfold schedule_orders_greedy_nosplit
  by_cases hcond : L ≤ 0 ∨ avail = []
  · rw [if_pos hcond]
    have h0 : (((avail.map (fun ln => (ln, ([] : List (Nat × Int))))).map
        (fun p => p.2.map Prod.fst)).flatten) = ([] : List Nat) := by
      simp [List.map_map]
    rw [h0]
    exact List.nodup_nil
  · rw [if_neg hcond]
    have helig : ∀ j ∈ sorted_jobs avail mats orders, ∀ ln ∈ j.eligible_lines, ln ∈ avail := by
      intro j hj ln hln
      have hj' := (sorted_jobs_perm avail mats orders).mem_iff.mp hj
      obtain ⟨po, _, _, _, heligs, _, _⟩ := mem_enrich hj'
      rw [heligs] at hln
      exact (mem_eligible_lines.mp hln).1
    have hsub := sched_ids s L avail hA (sorted_jobs avail mats orders)
      ⟨fun _ => 0, fun _ => []⟩ helig
    have hbase : ((avail.map (fun ln =>
        (((⟨fun _ => 0, fun _ => []⟩ : SchedState).seq ln)).map Prod.fst)).flatten)
        = ([] : List Nat) := by simp
    rw [hbase, List.nil_append] at hsub
    have hjobsids : ((sorted_jobs avail mats orders).map Job.order_number).Nodup := by
      have hperm := (sorted_jobs_perm avail mats orders).map Job.order_number
      exact hperm.nodup_iff.mpr ((enrich_ids_sublist avail mats orders).nodup hids)
    have hfin : ((avail.map (fun ln => ((((sorted_jobs avail mats orders).foldl
        (schedule_step s L) ⟨fun _ => 0, fun _ => []⟩).seq ln)).map Prod.fst)).flatten).Nodup := by
      obtain ⟨l2, hl2perm, hl2sub⟩ := hsub
      exact hl2perm.nodup_iff.mp (hl2sub.nodup hjobsids)
    rw [List.map_map]
    exact hfin

/-- Truncation of an integer-valued rational is that integer. -/
theorem ratTrunc_intCast (n : Int) : ratTrunc ((n : Int) : ℚ) = n := by
  unfold ratTrunc
  rw [Rat.intCast_num, Rat.intCast_den]
  exact Int.tdiv_one n

/-- Placement representation without any sign assumption on the shift
length: every returned sequence lists its placed jobs with cumulative start
stamps from `shift_start`. -/
theorem sched_top_starts (avail : List Line) (orders : List POrder) (mats : List Material)
    (s L : Int) :
    ∀ p ∈ schedule_orders_greedy_nosplit avail orders mats s L,
      ∃ jobs : List Job, (∀ j ∈ jobs, j ∈ enrich avail mats orders ∧ p.1 ∈ j.eligible_lines) ∧
        p.2 = with_starts s jobs 0 := by
  intro p hp
  unfold schedule_orders_greedy_nosplit at hp
  by_cases hcond : L ≤ 0 ∨ avail = []
  · rw [if_pos hcond] at hp
    obtain ⟨ln, _, rfl⟩ := List.mem_map.mp hp
    exact ⟨[], by simp, rfl⟩
  · rw [if_neg hcond] at hp
    obtain ⟨ln, hln, rfl⟩ := List.mem_map.mp hp
    have hL : (0 : Int) ≤ L := by
      rcases not_or.mp hcond with ⟨h1, _⟩
      omega
    obtain ⟨pl2, h1, h2, h3, h4⟩ := sched_pointwise s L (sorted_jobs avail mats orders)
      ⟨fun _ => 0, fun _ => []⟩ (fun _ => []) (fun _ => rfl) (fun _ => by simp [sum_durations])
      (fun _ => hL)
    refine ⟨pl2 ln, ?_, h1 ln⟩
    intro j hj
    obtain ⟨add, ha1, ha2⟩ := h4 ln
    rw [ha1] at hj
    simp only [List.nil_append] at hj
    obtain ⟨hel, hmem⟩ := ha2 j hj
    exact ⟨(sorted_jobs_perm avail mats orders).mem_iff.mp hmem, hel⟩

/-- Scenario D of the spec: one line, shift 3600 s, two equal-density orders
of durations 1000 s and 2000 s, shorter first, contiguous starts. -/
theorem scenario_D (s : Int) :
    schedule_orders_greedy_nosplit [1] [⟨1, 5, 1000, 1⟩, ⟨2, 5, 2000, 1⟩] [⟨5, [1]⟩] s 3600
      = [(1, [(1, s), (2, s + 1000)])] := by
  have hd1 : ratTrunc (1000 : ℚ) = 1000 := by decide
  have hd2 : ratTrunc (2000 : ℚ) = 2000 := by decide
  have henr : enrich [1] [⟨5, [1]⟩] [⟨1, 5, 1000, 1⟩, ⟨2, 5, 2000, 1⟩]
      = [⟨1, 5, 1000, [1], 1⟩, ⟨2, 5, 2000, [1], 1⟩] := by
    unfold enrich
    simp [eligible_lines_for_order, mat_to_lines, sortNats, List.insertionSort,
      List.orderedInsert, hd1, hd2]
  have hjobs : sorted_jobs [1] [⟨5, [1]⟩] [⟨1, 5, 1000, 1⟩, ⟨2, 5, 2000, 1⟩]
      = [⟨1, 5, 1000, [1], 1⟩, ⟨2, 5, 2000, [1], 1⟩] := by
    unfold sorted_jobs
    rw [henr]
    simp [List.insertionSort, List.orderedInsert, jobLE, densGT, densEQ]
  unfold schedule_orders_greedy_nosplit
  rw [if_neg (by decide)]
  rw [hjobs]
  simp [schedule_step, choose_best_line, lineKeyGT, with_starts]

/-! ## Claim theorems for the scheduler and scorer -/

/-- C2, counterexample to the claimed tie-break: with two fitting lines of
equal remaining capacity and equal used-time, the claimed rule (line
identifier ascending) picks line 1, but the code's
`max(candidates, key=(shift_len - used, -used, ln))` picks line 2, and the
full scheduler indeed places the order on line 2. -/
theorem claim_C2_counterexample :
    spec_choose_line 100 (fun _ => 0) [1, 2] = some 1 ∧
    choose_best_line 100 (fun _ => 0) [1, 2] = some 2 ∧
    schedule_orders_greedy_nosplit [1, 2] [⟨7, 5, 10, 1⟩] [⟨5, [1, 2]⟩] 0 100
      = [(1, []), (2, [(7, 0)])] := by
  refine ⟨by decide, by decide, ?_⟩
  have hd : ratTrunc (10 : ℚ) = 10 := by decide
  have henr : enrich [1, 2] [⟨5, [1, 2]⟩] [⟨7, 5, 10, 1⟩] = [⟨7, 5, 10, [1, 2], 1⟩] := by
    unfold enrich
    simp [eligible_lines_for_order, mat_to_lines, sortNats, List.insertionSort,
      List.orderedInsert, hd]
  have hjobs : sorted_jobs [1, 2] [⟨5, [1, 2]⟩] [⟨7, 5, 10, 1⟩] = [⟨7, 5, 10, [1, 2], 1⟩] := by
    unfold sorted_jobs
    rw [henr]
    simp [List.insertionSort, List.orderedInsert]
  unfold schedule_orders_greedy_nosplit
  rw [if_neg (by decide)]
  rw [hjobs]
  simp [schedule_step, choose_best_line, lineKeyGT, with_starts]

/-- C2 (amended): for every order whose set of fitting eligible lines is
non-empty, the chosen line has the greatest remaining capacity
(`shift length - used`); capacity ties are broken by the *greatest* line
identifier (the used-time tie-break of the spec is vacuous, since equal
remaining capacity forces equal used-time). -/
theorem claim_C2 (s L : Int) (st : SchedState) (job : Job)
    (h : job.eligible_lines.filter (fun ln => decide (st.used ln + job.duration_s ≤ L)) ≠ []) :
    ∃ b, b ∈ job.eligible_lines.filter (fun ln => decide (st.used ln + job.duration_s ≤ L)) ∧
      (∀ c ∈ job.eligible_lines.filter (fun ln => decide (st.used ln + job.duration_s ≤ L)),
        L - st.used c < L - st.used b ∨ (L - st.used c = L - st.used b ∧ c ≤ b)) ∧
      schedule_step s L st job =
        ⟨fun ln => if ln = b then st.used ln + job.duration_s else st.used ln,
         fun ln => if ln = b then st.seq ln ++ [(job.order_number, s + st.used b)]
           else st.seq ln⟩ := by
  unfold schedule_step
  cases hc : job.eligible_lines.filter (fun ln => decide (st.used ln + job.duration_s ≤ L)) with
  | nil => exact absurd hc h
  | cons c cs =>
      obtain ⟨b, hb, hbmem, hbmax⟩ := @choose_best_line_spec L st.used c cs
      refine ⟨b, hc ▸ hbmem, ?_, by simp only [hb]⟩
      intro c2 hc2
      exact hbmax c2 (hc ▸ hc2)

theorem claim_C2_witness :
    (([1, 2] : List Line).filter
      (fun ln => decide ((fun _ => (0 : Int)) ln + 10 ≤ 100)) ≠ []) ∧
    (∃ b, b ∈ ([1, 2] : List Line).filter
        (fun ln => decide (((⟨fun _ => 0, fun _ => []⟩ : SchedState)).used ln + 10 ≤ 100)) ∧
      (∀ c ∈ ([1, 2] : List Line).filter
          (fun ln => decide (((⟨fun _ => 0, fun _ => []⟩ : SchedState)).used ln + 10 ≤ 100)),
        100 - ((⟨fun _ => 0, fun _ => []⟩ : SchedState)).used c
            < 100 - ((⟨fun _ => 0, fun _ => []⟩ : SchedState)).used b ∨
          (100 - ((⟨fun _ => 0, fun _ => []⟩ : SchedState)).used c
              = 100 - ((⟨fun _ => 0, fun _ => []⟩ : SchedState)).used b ∧ c ≤ b)) ∧
      schedule_step 0 100 ⟨fun _ => 0, fun _ => []⟩ ⟨7, 5, 10, [1, 2], 1⟩ =
        ⟨fun ln => if ln = b
            then ((⟨fun _ => 0, fun _ => []⟩ : SchedState)).used ln + 10
            else ((⟨fun _ => 0, fun _ => []⟩ : SchedState)).used ln,
         fun ln => if ln = b
            then ((⟨fun _ => 0, fun _ => []⟩ : SchedState)).seq ln
              ++ [(7, 0 + ((⟨fun _ => 0, fun _ => []⟩ : SchedState)).used b)]
            else ((⟨fun _ => 0, fun _ => []⟩ : SchedState)).seq ln⟩) :=
  ⟨by decide, claim_C2 0 100 ⟨fun _ => 0, fun _ => []⟩ ⟨7, 5, 10, [1, 2], 1⟩ (by decide)⟩

/-- C5: every placed order sits on a line of its eligible set (its material's
capable lines intersected with the available line set), each order is placed
at most once across the whole schedule, and each line's placed jobs fit the
shift length. -/
theorem claim_C5 (avail : List Line) (orders : List POrder) (mats : List Material)
    (s L : Int) (hA : avail.Nodup) (hids : (orders.map POrder.order_number).Nodup)
    (hL : 0 ≤ L) :
    (∀ p ∈ schedule_orders_greedy_nosplit avail orders mats s L, ∀ ent ∈ p.2,
      ∃ po ∈ orders, po.order_number = ent.1 ∧ p.1 ∈ avail ∧
        p.1 ∈ mat_to_lines mats po.material_number) ∧
    ((((schedule_orders_greedy_nosplit avail orders mats s L).map
      (fun p => p.2.map Prod.fst)).flatten).Nodup) ∧
    (∀ p ∈ schedule_orders_greedy_nosplit avail orders mats s L,
      ∃ jobs : List Job, (∀ j ∈ jobs, j ∈ enrich avail mats orders ∧ p.1 ∈ j.eligible_lines) ∧
        p.2 = with_starts s jobs 0 ∧ sum_durations jobs ≤ L) :=
  ⟨sched_top_entries avail orders mats s L,
   sched_top_ids_nodup avail orders mats s L hA hids,
   sched_top_capacity avail orders mats s L hL⟩

theorem claim_C5_witness :
    (([1] : List Line).Nodup ∧ (([⟨1, 5, 1, 1⟩] : List POrder).map POrder.order_number).Nodup ∧
      (0 : Int) ≤ 50) ∧
    ((∀ p ∈ schedule_orders_greedy_nosplit [1] [⟨1, 5, 1, 1⟩] [] 0 50, ∀ ent ∈ p.2,
      ∃ po ∈ ([⟨1, 5, 1, 1⟩] : List POrder), po.order_number = ent.1 ∧ p.1 ∈ [1] ∧
        p.1 ∈ mat_to_lines [] po.material_number) ∧
    ((((schedule_orders_greedy_nosplit [1] [⟨1, 5, 1, 1⟩] [] 0 50).map
      (fun p => p.2.map Prod.fst)).flatten).Nodup) ∧
    (∀ p ∈ schedule_orders_greedy_nosplit [1] [⟨1, 5, 1, 1⟩] [] 0 50,
      ∃ jobs : List Job, (∀ j ∈ jobs, j ∈ enrich [1] [] [⟨1, 5, 1, 1⟩] ∧
          p.1 ∈ j.eligible_lines) ∧
        p.2 = with_starts 0 jobs 0 ∧ sum_durations jobs ≤ 50)) :=
  ⟨⟨by decide, by decide, by decide⟩,
   claim_C5 [1] [⟨1, 5, 1, 1⟩] [] 0 50 (by decide) (by decide) (by decide)⟩

/-- C7: the scheduler processes the eligible (enriched) orders in the claimed
total order — density descending, then duration ascending, then order number
ascending — as a permutation of the enriched set; every produced sequence
carries cumulative start stamps (each start is the shift start plus the
line's used-time before that placement); and scenario D behaves exactly as
claimed. -/
theorem claim_C7 (avail : List Line) (orders : List POrder) (mats : List Material)
    (s L : Int) :
    List.Pairwise specJobOrder (sorted_jobs avail mats orders) ∧
    (sorted_jobs avail mats orders).Perm (enrich avail mats orders) ∧
    (∀ p ∈ schedule_orders_greedy_nosplit avail orders mats s L,
      ∃ jobs : List Job, (∀ j ∈ jobs, j ∈ enrich avail mats orders ∧ p.1 ∈ j.eligible_lines) ∧
        p.2 = with_starts s jobs 0) ∧
    (∀ s2 : Int,
      schedule_orders_greedy_nosplit [1] [⟨1, 5, 1000, 1⟩, ⟨2, 5, 2000, 1⟩] [⟨5, [1]⟩] s2 3600
        = [(1, [(1, s2), (2, s2 + 1000)])]) :=
  ⟨(sorted_jobs_sorted avail mats orders).imp
      (fun hab => (jobLE_iff_specJobOrder _ _).mp hab),
   sorted_jobs_perm avail mats orders,
   sched_top_starts avail orders mats s L,
   scenario_D⟩

/-- C8: the scorer is monotone — adding a line to a candidate set never
decreases the total producible quantity (quantities are non-negative per the
data model). -/
theorem claim_C8 (S : List Line) (l : Line) (orders : List POrder) (mats : List Material)
    (hq : ∀ po ∈ orders, 0 ≤ po.quantity) :
    score_assignment_quantity S orders mats ≤ score_assignment_quantity (l :: S) orders mats := by
  rw [score_eq_sum, score_eq_sum]
  apply sum_filter_mono _ _ _ _ hq
  intro po _ hp
  rcases List.any_eq_true.mp hp with ⟨x, hx, hx2⟩
  exact List.any_eq_true.mpr ⟨x, List.mem_cons_of_mem _ hx, hx2⟩

theorem claim_C8_witness :
    (∀ po ∈ ([⟨1, 5, 10, 1⟩] : List POrder), 0 ≤ po.quantity) ∧
    score_assignment_quantity [2] [⟨1, 5, 10, 1⟩] [⟨5, [1]⟩]
      ≤ score_assignment_quantity (1 :: [2]) [⟨1, 5, 10, 1⟩] [⟨5, [1]⟩] :=
  ⟨by decide, claim_C8 [2] 1 [⟨1, 5, 10, 1⟩] [⟨5, [1]⟩] (by decide)⟩

/-- C10: a production order whose material number has no entry in the
materials collection adds nothing to the score, and the scheduler silently
discards it (its order number appears in no line's sequence); the lookup
falls back to the empty line set in both functions. -/
theorem claim_C10 (mats : List Material) (k : Nat)
    (hmiss : ∀ m ∈ mats, m.material_number ≠ k) :
    mat_to_lines mats k = [] ∧
    (∀ (combo : List Line) (po : POrder) (rest : List POrder), po.material_number = k →
      score_assignment_quantity combo (po :: rest) mats
        = score_assignment_quantity combo rest mats) ∧
    (∀ (avail : List Line) (orders : List POrder) (s L : Int) (oid : Nat),
      (∀ po ∈ orders, po.order_number = oid → po.material_number = k) →
      ∀ p ∈ schedule_orders_greedy_nosplit avail orders mats s L, ∀ ent ∈ p.2,
        ent.1 ≠ oid) := by
  have hnil := mat_to_lines_missing hmiss
  refine ⟨hnil, ?_, ?_⟩
  · intro combo po rest hk
    rw [score_eq_sum, score_eq_sum]
    have hpred : (combo.any
        (fun l => (mat_to_lines mats po.material_number).contains l)) = false := by
      rw [hk, hnil]
      simp
    rw [List.filter_cons, hpred]
    simp
  · intro avail orders s L oid hall p hp ent hent
    intro hcontra
    obtain ⟨po, hpo, hnum, _, hmat⟩ := sched_top_entries avail orders mats s L p hp ent hent
    have hk : po.material_number = k := hall po hpo (by rw [hnum, hcontra])
    rw [hk, hnil] at hmat
    cases hmat

theorem claim_C10_witness :
    (∀ m ∈ ([⟨5, [1]⟩] : List Material), m.material_number ≠ 9) ∧
    (mat_to_lines [⟨5, [1]⟩] 9 = [] ∧
    (∀ (combo : List Line) (po : POrder) (rest : List POrder), po.material_number = 9 →
      score_assignment_quantity combo (po :: rest) [⟨5, [1]⟩]
        = score_assignment_quantity combo rest [⟨5, [1]⟩]) ∧
    (∀ (avail : List Line) (orders : List POrder) (s L : Int) (oid : Nat),
      (∀ po ∈ orders, po.order_number = oid → po.material_number = 9) →
      ∀ p ∈ schedule_orders_greedy_nosplit avail orders [⟨5, [1]⟩] s L, ∀ ent ∈ p.2,
        ent.1 ≠ oid)) :=
  ⟨by decide, claim_C10 [⟨5, [1]⟩] 9 (by decide)⟩

/-! ## The brute-force maximum matching size -/

theorem matchingOn_nil (adj : Line → List Emp) (L : List Line) : matchingOn adj L [] :=
  ⟨List.nodup_nil, List.nodup_nil, fun p hp => absurd hp (List.not_mem_nil p)⟩

theorem mem_edgeList {lines : List Line} {emps : List Employee} {p : Line × Emp}
    (h1 : p.1 ∈ lines) (h2 : p.2 ∈ line_to_emps emps p.1) : p ∈ edgeList lines emps := by
  unfold edgeList
  rw [List.mem_bind]
  exact ⟨p.1, h1, List.mem_map.mpr ⟨p.2, h2, rfl⟩⟩

theorem matching_le_trueMax {lines : List Line} {emps : List Employee}
    {P : List (Line × Emp)} (hP : matchingOn (line_to_emps emps) lines P) :
    P.length ≤ trueMaxMatchingSize lines emps := by
  obtain ⟨hf, hs, hmem⟩ := hP
  have hnodup : P.Nodup := List.Nodup.of_map Prod.fst hf
  have hsubset : P ⊆ edgeList lines emps := by
    intro p hp
    exact mem_edgeList (hmem p hp).1 (hmem p hp).2
  obtain ⟨l2, hperm, hsub⟩ := hnodup.subperm hsubset
  have hl2 : l2 ∈ allMatchings lines emps := by
    unfold allMatchings
    rw [List.mem_filter, List.mem_sublists]
    refine ⟨hsub, decide_eq_true ?_⟩
    refine ⟨(hperm.map Prod.fst).nodup_iff.mpr hf, (hperm.map Prod.snd).nodup_iff.mpr hs, ?_⟩
    intro p hp
    exact hmem p (hperm.mem_iff.mp hp)
  have : l2.length ∈ (allMatchings lines emps).map List.length :=
    List.mem_map.mpr ⟨l2, hl2, rfl⟩
  have hle := foldr_max_le this
  rw [hperm.length_eq] at hle
  exact hle

theorem trueMax_attained (lines : List Line) (emps : List Employee) :
    ∃ P, matchingOn (line_to_emps emps) lines P ∧
      P.length = trueMaxMatchingSize lines emps := by
  rcases foldr_max_attained ((allMatchings lines emps).map List.length) with h0 | hmem
  · refine ⟨[], matchingOn_nil _ _, ?_⟩
    unfold trueMaxMatchingSize
    rw [h0]
    rfl
  · obtain ⟨P, hP, hlen⟩ := List.mem_map.mp hmem
    refine ⟨P, ?_, hlen⟩
    unfold allMatchings at hP
    have := (List.mem_filter.mp hP).2
    exact of_decide_eq_true this

/-! ## Dict lemmas for the matcher -/

theorem lookup_cons_ne {rest : List (Emp × Line)} {x e : Emp} {l : Line} (hne : x ≠ e) :
    List.lookup x ((e, l) :: rest) = List.lookup x rest := by
  have hb : (x == e) = false := by simpa using hne
  simp [List.lookup, hb]

theorem lookup_cons_self {rest : List (Emp × Line)} {e : Emp} {l : Line} :
    List.lookup e ((e, l) :: rest) = some l := by
  simp [List.lookup]

theorem lookup_eq_none_iff {m : List (Emp × Line)} {e : Emp} :
    List.lookup e m = none ↔ e ∉ m.map Prod.fst := by
  induction m with
  | nil => simp
  | cons q rest ih =>
      rcases q with ⟨e', l'⟩
      by_cases he : e = e'
      · subst he
        simp [lookup_cons_self]
      · rw [lookup_cons_ne he, ih]
        simp only [List.map_cons, List.mem_cons]
        constructor
        · rintro h (h2 | h2)
          · exact he h2
          · exact h h2
        · intro h h2
          exact h (Or.inr h2)

theorem lookup_mem {m : List (Emp × Line)} {e : Emp} {l : Line}
    (h : List.lookup e m = some l) : (e, l) ∈ m := by
  induction m with
  | nil => cases h
  | cons q rest ih =>
      rcases q with ⟨e', l'⟩
      by_cases he : e = e'
      · subst he
        rw [lookup_cons_self] at h
        obtain rfl := Option.some.inj h
        exact List.mem_cons_self _ _
      · rw [lookup_cons_ne he] at h
        exact List.mem_cons_of_mem _ (ih h)

theorem lookup_of_mem_nodup {m : List (Emp × Line)} {e : Emp} {l : Line}
    (hn : (m.map Prod.fst).Nodup) (hmem : (e, l) ∈ m) : List.lookup e m = some l := by
  induction m with
  | nil => cases hmem
  | cons q rest ih =>
      rcases q with ⟨e', l'⟩
      rcases List.mem_cons.mp hmem with heq | hmem'
      · obtain ⟨rfl, rfl⟩ := Prod.mk.injEq .. ▸ heq
        exact lookup_cons_self
      · have he : e ≠ e' := by
          intro h
          subst h
          exact (List.nodup_cons.mp hn).1
            (List.mem_map.mpr ⟨(e, l), hmem', rfl⟩)
        rw [lookup_cons_ne he]
        exact ih (List.nodup_cons.mp hn).2 hmem'

theorem mset_of_lookup_none {m : List (Emp × Line)} {e : Emp} {l : Line}
    (h : List.lookup e m = none) : mset m e l = m ++ [(e, l)] := by
  induction m with
  | nil => rfl
  | cons q rest ih =>
      rcases q with ⟨e', l'⟩
      by_cases he : e' = e
      · subst he
        rw [lookup_cons_self] at h
        cases h
      · have he2 : e ≠ e' := fun h2 => he h2.symm
        rw [lookup_cons_ne he2] at h
        simp only [mset, if_neg he, List.cons_append]
        rw [ih h]

theorem mset_decomp {m : List (Emp × Line)} {e : Emp} {l0 : Line} (l : Line)
    (h : List.lookup e m = some l0) :
    ∃ m1 m2, m = m1 ++ (e, l0) :: m2 ∧ mset m e l = m1 ++ (e, l) :: m2 ∧
      e ∉ m1.map Prod.fst := by
  induction m with
  | nil => cases h
  | cons q rest ih =>
      rcases q with ⟨e', l'⟩
      by_cases he : e' = e
      · subst he
        rw [lookup_cons_self] at h
        obtain rfl := Option.some.inj h
        exact ⟨[], rest, by simp [mset]⟩
      · have he2 : e ≠ e' := fun h2 => he h2.symm
        rw [lookup_cons_ne he2] at h
        obtain ⟨m1, m2, hm, hmset, hnotin⟩ := ih h
        refine ⟨(e', l') :: m1, m2, by rw [List.cons_append, ← hm], ?_, ?_⟩
        · simp only [mset, if_neg he, List.cons_append]
          rw [hmset]
        · simp only [List.map_cons, List.mem_cons]
          rintro (h2 | h2)
          · exact he2 h2
          · exact hnotin h2

theorem lookup_mset_ne {m : List (Emp × Line)} {x e : Emp} {l : Line} (hne : x ≠ e) :
    List.lookup x (mset m e l) = List.lookup x m := by
  induction m with
  | nil =>
      show List.lookup x [(e, l)] = List.lookup x []
      rw [lookup_cons_ne hne]
  | cons q rest ih =>
      rcases q with ⟨e', l'⟩
      by_cases he : e' = e
      · subst he
        have hif : mset ((e', l') :: rest) e' l = (e', l) :: rest := by simp [mset]
        rw [hif, lookup_cons_ne hne, lookup_cons_ne hne]
      · simp only [mset, if_neg he]
        by_cases hx : x = e'
        · subst hx
          rw [lookup_cons_self, lookup_cons_self]
        · rw [lookup_cons_ne hx, lookup_cons_ne hx]
          exact ih

theorem lookup_append_of_ne {m : List (Emp × Line)} {x e : Emp} {l : Line} (hne : x ≠ e) :
    List.lookup x (m ++ [(e, l)]) = List.lookup x m := by
  induction m with
  | nil =>
      show List.lookup x [(e, l)] = List.lookup x []
      rw [lookup_cons_ne hne]
  | cons q rest ih =>
      rcases q with ⟨e', l'⟩
      by_cases hx : x = e'
      · subst hx
        simp only [List.cons_append]
        rw [lookup_cons_self, lookup_cons_self]
      · simp only [List.cons_append]
        rw [lookup_cons_ne hx, lookup_cons_ne hx]
        exact ih

/-! ## Specification of the augmenting search -/

theorem try_augment_list_cons
    (rec : Line → List (Emp × Line) → List Emp → Bool × List (Emp × Line) × List Emp)
    (line : Line) (e : Emp) (cands : List Emp) (m : List (Emp × Line)) (seen : List Emp) :
    try_augment_list rec line (e :: cands) m seen =
      if e ∈ seen then try_augment_list rec line cands m seen
      else match List.lookup e m with
        | none => (true, mset m e line, e :: seen)
        | some l0 =>
            match rec l0 m (e :: seen) with
            | (true, m1, s1) => (true, mset m1 e line, s1)
            | (false, m1, s1) => try_augment_list rec line cands m1 s1 := rfl

theorem try_augment_list_cons_none
    {rec : Line → List (Emp × Line) → List Emp → Bool × List (Emp × Line) × List Emp}
    {line : Line} {e : Emp} {cands : List Emp} {m : List (Emp × Line)} {seen : List Emp}
    (hseen : e ∉ seen) (hlook : List.lookup e m = none) :
    try_augment_list rec line (e :: cands) m seen = (true, mset m e line, e :: seen) := by
  rw [try_augment_list_cons, if_neg hseen, hlook]

theorem try_augment_list_cons_some
    {rec : Line → List (Emp × Line) → List Emp → Bool × List (Emp × Line) × List Emp}
    {line : Line} {e : Emp} {cands : List Emp} {m : List (Emp × Line)} {seen : List Emp}
    {l0 : Line} {rflag : Bool} {m1 : List (Emp × Line)} {s1 : List Emp}
    (hseen : e ∉ seen) (hlook : List.lookup e m = some l0)
    (hrec : rec l0 m (e :: seen) = (rflag, m1, s1)) :
    try_augment_list rec line (e :: cands) m seen =
      cond rflag (true, mset m1 e line, s1) (try_augment_list rec line cands m1 s1) := by
  rw [try_augment_list_cons, if_neg hseen, hlook]
  show (match rec l0 m (e :: seen) with
        | (true, m1, s1) => (true, mset m1 e line, s1)
        | (false, m1, s1) => try_augment_list rec line cands m1 s1) = _
  rw [hrec]
  cases rflag <;> rfl

theorem try_augment_list_spec (adj : Line → List Emp) (U : List Emp)
    (hU : ∀ l, ∀ e ∈ adj l, e ∈ U) (fuel : Nat)
    (ihrec : ∀ l2 m2 s2, (U.filter (fun x => decide (x ∉ s2))).length < fuel → s2.Nodup →
      AugSpec adj l2 m2 s2 (try_augment adj fuel l2 m2 s2))
    (line : Line) :
    ∀ (cands : List Emp) (m : List (Emp × Line)) (seen : List Emp)
      (flag : Bool) (m' : List (Emp × Line)) (s' : List Emp),
      try_augment_list (try_augment adj fuel) line cands m seen = (flag, m', s') →
      (∀ e ∈ cands, e ∈ adj line) →
      (U.filter (fun x => decide (x ∉ seen))).length ≤ fuel → seen.Nodup →
      (flag = true → AugSuccess adj line m m' seen) ∧
      (flag = false → m' = m ∧ seen ⊆ s' ∧ s'.Nodup ∧ (∀ e ∈ cands, e ∈ s') ∧
        SeenClosure adj m seen s') := by
  intro cands
  induction cands with
  | nil =>
      intro m seen flag m' s' hr hc hfuel hnodup
      have hr2 : ((false, m, seen) : Bool × List (Emp × Line) × List Emp)
          = (flag, m', s') := hr
      rw [Prod.mk.injEq, Prod.mk.injEq] at hr2
      obtain ⟨rfl, rfl, rfl⟩ := hr2
      refine ⟨fun h => Bool.noConfusion h, fun _ => ⟨rfl, fun x hx => hx, hnodup, ?_, ?_⟩⟩
      · intro x hx
        cases hx
      · intro x hx hnot
        exact absurd hx hnot
  | cons e cands ih =>
      intro m seen flag m' s' hr hc hfuel hnodup
      by_cases hseen : e ∈ seen
      · rw [try_augment_list_cons, if_pos hseen] at hr
        have hres := ih m seen flag m' s' hr (fun x hx => hc x (List.mem_cons_of_mem _ hx))
          hfuel hnodup
        refine ⟨hres.1, ?_⟩
        intro hfl
        obtain ⟨h1, h2, h3, h4, h5⟩ := hres.2 hfl
        refine ⟨h1, h2, h3, ?_, h5⟩
        intro x hx
        rcases List.mem_cons.mp hx with rfl | hx'
        · exact h2 hseen
        · exact h4 x hx'
      · have heU : e ∈ U := hU line e (hc e (List.mem_cons_self _ _))
        have headj : e ∈ adj line := hc e (List.mem_cons_self _ _)
        cases hlook : List.lookup e m with
        | none =>
            rw [try_augment_list_cons_none hseen hlook] at hr
            rw [Prod.mk.injEq, Prod.mk.injEq] at hr
            obtain ⟨rfl, rfl, rfl⟩ := hr
            refine ⟨fun _ => ?_, fun hfl => Bool.noConfusion hfl⟩
            rw [mset_of_lookup_none hlook]
            refine ⟨?_, ?_, ?_, ?_⟩
            · intro x hx
              exact lookup_append_of_ne (fun h => hseen (h ▸ hx))
            · rw [List.map_append]
              simpa using List.perm_append_comm
            · refine ⟨e, lookup_eq_none_iff.mp hlook, ?_⟩
              rw [List.map_append]
              simpa using List.perm_append_comm
            · intro p hp
              rcases List.mem_append.mp hp with h | h
              · exact Or.inl h
              · simp only [List.mem_singleton] at h
                subst h
                exact Or.inr headj
        | some l0 =>
            rcases hrec : try_augment adj fuel l0 m (e :: seen) with ⟨rflag, m1, s1⟩
            rw [try_augment_list_cons_some hseen hlook hrec] at hr
            have hcount1 : (U.filter (fun x => decide (x ∉ e :: seen))).length < fuel :=
              lt_of_lt_of_le (filter_length_lt heU hseen) hfuel
            have hnodup1 : (e :: seen).Nodup := List.nodup_cons.mpr ⟨hseen, hnodup⟩
            have hspec := ihrec l0 m (e :: seen) hcount1 hnodup1
            rw [hrec] at hspec
            cases rflag with
            | true =>
                have hr2 : ((true, mset m1 e line, s1) :
                    Bool × List (Emp × Line) × List Emp) = (flag, m', s') := hr
                rw [Prod.mk.injEq, Prod.mk.injEq] at hr2
                obtain ⟨rfl, rfl, rfl⟩ := hr2
                have hspec1 : AugSuccess adj l0 m m1 (e :: seen) := hspec.1 rfl
                obtain ⟨hpres, hvals, ⟨ep, hep, hkeys⟩, hedges⟩ := hspec1
                have hlookm1 : List.lookup e m1 = some l0 := by
                  rw [hpres e (List.mem_cons_self _ _)]
                  exact hlook
                obtain ⟨a, b, hm1, hmset, _⟩ := mset_decomp line hlookm1
                refine ⟨fun _ => ⟨?_, ?_, ?_, ?_⟩, fun hfl => Bool.noConfusion hfl⟩
                · intro x hx
                  have hxe : x ≠ e := fun h => hseen (h ▸ hx)
                  rw [lookup_mset_ne hxe]
                  exact hpres x (List.mem_cons_of_mem _ hx)
                · have h1 : (mset m1 e line).map Prod.snd
                      = a.map Prod.snd ++ line :: b.map Prod.snd := by
                    rw [hmset]
                    simp
                  have h2 : m1.map Prod.snd = a.map Prod.snd ++ l0 :: b.map Prod.snd := by
                    rw [hm1]
                    simp
                  rw [h2] at hvals
                  have h5 : (a.map Prod.snd ++ b.map Prod.snd).Perm (m.map Prod.snd) :=
                    ((List.perm_middle).symm.trans hvals).cons_inv
                  rw [h1]
                  exact (List.perm_middle).trans (h5.cons line)
                · have hkeq : (mset m1 e line).map Prod.fst = m1.map Prod.fst := by
                    rw [hmset, hm1]
                    simp
                  exact ⟨ep, hep, hkeq ▸ hkeys⟩
                · intro p hp
                  rw [hmset] at hp
                  rcases List.mem_append.mp hp with h | h
                  · refine hedges p ?_
                    rw [hm1]
                    exact List.mem_append.mpr (Or.inl h)
                  · rcases List.mem_cons.mp h with rfl | h2
                    · exact Or.inr headj
                    · refine hedges p ?_
                      rw [hm1]
                      exact List.mem_append.mpr (Or.inr (List.mem_cons_of_mem _ h2))
            | false =>
                have hspec2 : AugFail adj l0 m m1 (e :: seen) s1 := hspec.2 rfl
                obtain ⟨hm1eq, hsub1, hnod1, hadj0, hclos1⟩ := hspec2
                have hr2 : try_augment_list (try_augment adj fuel) line cands m1 s1
                    = (flag, m', s') := hr
                rw [hm1eq] at hr2
                have hcnt2 : (U.filter (fun x => decide (x ∉ s1))).length ≤ fuel :=
                  le_of_lt (lt_of_le_of_lt (filter_length_mono hsub1) hcount1)
                have hres := ih m s1 flag m' s' hr2
                  (fun x hx => hc x (List.mem_cons_of_mem _ hx)) hcnt2 hnod1
                constructor
                · intro hfl
                  obtain ⟨hp1, hp2, hp3, hp4⟩ := hres.1 hfl
                  refine ⟨?_, hp2, hp3, hp4⟩
                  intro x hx
                  exact hp1 x (hsub1 (List.mem_cons_of_mem _ hx))
                · intro hfl
                  obtain ⟨h1, h2, h3, h4, h5⟩ := hres.2 hfl
                  refine ⟨h1, ?_, h3, ?_, ?_⟩
                  · intro x hx
                    exact h2 (hsub1 (List.mem_cons_of_mem _ hx))
                  · intro x hx
                    rcases List.mem_cons.mp hx with rfl | hx'
                    · exact h2 (hsub1 (List.mem_cons_self _ _))
                    · exact h4 x hx'
                  · intro x hxs' hxseen
                    by_cases hx1 : x ∈ s1
                    · by_cases hx2 : x ∈ e :: seen
                      · rcases List.mem_cons.mp hx2 with rfl | hx3
                        · exact ⟨l0, hlook, fun e2 he2 => h2 (hadj0 e2 he2)⟩
                        · exact absurd hx3 hxseen
                      · obtain ⟨lx, hlx, hlxadj⟩ := hclos1 x hx1 hx2
                        exact ⟨lx, hlx, fun e2 he2 => h2 (hlxadj e2 he2)⟩
                    · obtain ⟨lx, hlx, hlxadj⟩ := h5 x hxs' hx1
                      exact ⟨lx, hlx, hlxadj⟩

theorem try_augment_spec (adj : Line → List Emp) (U : List Emp)
    (hU : ∀ l, ∀ e ∈ adj l, e ∈ U) :
    ∀ (fuel : Nat) (line : Line) (m : List (Emp × Line)) (seen : List Emp),
      (U.filter (fun x => decide (x ∉ seen))).length < fuel → seen.Nodup →
      AugSpec adj line m seen (try_augment adj fuel line m seen) := by
  intro fuel
  induction fuel with
  | zero =>
      intro line m seen hcount
      exact absurd hcount (Nat.not_lt_zero _)
  | succ fuel ih =>
      intro line m seen hcount hnodup
      show AugSpec adj line m seen
        (try_augment_list (try_augment adj fuel) line (adj line) m seen)
      rcases hr : try_augment_list (try_augment adj fuel) line (adj line) m seen
        with ⟨flag, m', s'⟩
      have hres := try_augment_list_spec adj U hU fuel
        (fun l2 m2 s2 hc hn => ih l2 m2 s2 hc hn) line (adj line) m seen flag m' s' hr
        (fun x hx => hx) (Nat.le_of_lt_succ hcount) hnodup
      exact ⟨hres.1, fun hfl => by
        obtain ⟨h1, h2, h3, h4, h5⟩ := hres.2 hfl
        exact ⟨h1, h2, h3, h4, h5⟩⟩

/-! ## The Kuhn loop invariant -/

theorem filter_map_fst (m : List (Emp × Line)) (p : Emp → Bool) :
    ((m.filter (fun q => p q.1)).map Prod.fst) = (m.map Prod.fst).filter p := by
  induction m with
  | nil => rfl
  | cons q rest ih =>
      rcases q with ⟨e, l⟩
      by_cases hp : p e = true
      · simp [List.filter_cons, hp, ih]
      · simp only [Bool.not_eq_true] at hp
        simp [List.filter_cons, hp, ih]

theorem nodup_length_eq_of_mem_iff {s t : List Emp} (hs : s.Nodup) (ht : t.Nodup)
    (h : ∀ x, x ∈ s ↔ x ∈ t) : s.length = t.length :=
  ((List.perm_ext_iff_of_nodup hs ht).mpr h).length_eq

theorem filter_eq_line_le_one {P : List (Line × Emp)} (h : (P.map Prod.fst).Nodup)
    (line : Line) : (P.filter (fun p => decide (p.1 = line))).length ≤ 1 := by
  induction P with
  | nil => simp
  | cons q rest ih =>
      rcases q with ⟨l, e⟩
      by_cases hl : l = line
      · subst hl
        simp only [List.filter_cons, decide_eq_true_eq, if_pos rfl]
        have : rest.filter (fun p => decide (p.1 = l)) = [] := by
          rw [List.filter_eq_nil_iff]
          intro p hp
          simp only [decide_eq_true_eq]
          intro hpl
          have hmem : l ∈ rest.map Prod.fst := List.mem_map.mpr ⟨p, hp, hpl⟩
          exact (List.nodup_cons.mp (by simpa using h)).1 hmem
        simp [this]
      · have h2 : (rest.map Prod.fst).Nodup := (List.nodup_cons.mp (by simpa using h)).2
        simp only [List.filter_cons, decide_eq_true_eq]
        rw [if_neg hl]
        exact ih h2

theorem filter_split_length {α : Type} (p : α → Bool) (P : List α) :
    (P.filter p).length + (P.filter (fun a => !p a)).length = P.length := by
  have h := (List.filter_append_perm p P).length_eq
  rw [List.length_append] at h
  exact h

theorem kuhn_step (adj : Line → List Emp) (U : List Emp)
    (hU : ∀ l, ∀ e ∈ adj l, e ∈ U) (fuel : Nat) (hfuel : U.length < fuel)
    (L : List Line) (line : Line) (m : List (Emp × Line))
    (hinv : KuhnInv adj L m) (hline : line ∉ L) :
    KuhnInv adj (L ++ [line]) (try_augment adj fuel line m []).2.1 := by
  obtain ⟨hkeys, hvals, hedge, hmax⟩ := hinv
  have hvalsL : ∀ l2 ∈ m.map Prod.snd, l2 ∈ L := by
    intro l2 hl2
    obtain ⟨q, hq, rfl⟩ := List.mem_map.mp hl2
    exact (hedge q hq).1
  have hcount : (U.filter (fun x => decide (x ∉ ([] : List Emp)))).length < fuel := by
    have hfe : U.filter (fun x => decide (x ∉ ([] : List Emp))) = U := by
      rw [List.filter_eq_self]
      intro a _
      simp
    rw [hfe]
    exact hfuel
  have hspec := try_augment_spec adj U hU fuel line m [] hcount List.nodup_nil
  rcases hres : try_augment adj fuel line m [] with ⟨flag, m', s'⟩
  rw [hres] at hspec
  cases flag with
  | true =>
      have hs : AugSuccess adj line m m' [] := hspec.1 rfl
      obtain ⟨_, hvals', ⟨ep, hep, hkeys'⟩, hedges'⟩ := hs
      have hlen' : m'.length = m.length + 1 := by
        have := hkeys'.length_eq
        simpa using this
      refine ⟨?_, ?_, ?_, ?_⟩
      · exact hkeys'.nodup_iff.mpr (List.nodup_cons.mpr ⟨hep, hkeys⟩)
      · refine hvals'.nodup_iff.mpr (List.nodup_cons.mpr ⟨?_, hvals⟩)
        intro hmem
        exact hline (hvalsL line hmem)
      · intro p hp
        constructor
        · have hp2 : p.2 ∈ m'.map Prod.snd := List.mem_map.mpr ⟨p, hp, rfl⟩
          have := hvals'.mem_iff.mp hp2
          rcases List.mem_cons.mp this with h | h
          · rw [h]
            exact List.mem_append.mpr (Or.inr (List.mem_singleton.mpr rfl))
          · exact List.mem_append.mpr (Or.inl (hvalsL _ h))
        · rcases hedges' p hp with h | h
          · exact (hedge p h).2
          · exact h
      · intro P hP
        obtain ⟨hPf, hPs, hPm⟩ := hP
        have hsplit := filter_split_length (fun p => decide (p.1 = line)) P
        have h1 := filter_eq_line_le_one hPf line
        have h2 : (P.filter (fun p => !decide (p.1 = line))).length ≤ m.length := by
          apply hmax
          refine ⟨((List.filter_sublist P).map Prod.fst).nodup hPf,
            ((List.filter_sublist P).map Prod.snd).nodup hPs, ?_⟩
          intro p hp
          have hpP := List.mem_filter.mp hp
          have hne : p.1 ≠ line := by
            have := hpP.2
            simpa using this
          refine ⟨?_, (hPm p hpP.1).2⟩
          rcases List.mem_append.mp (hPm p hpP.1).1 with h | h
          · exact h
          · exact absurd (List.mem_singleton.mp h) hne
        rw [hlen']
        omega
  | false =>
      have hf : AugFail adj line m m' [] s' := hspec.2 rfl
      obtain ⟨hm'm, _, hnodS, hadjline, hclos⟩ := hf
      have hgoal : ((false, m', s') : Bool × List (Emp × Line) × List Emp).2.1 = m := hm'm
      rw [hgoal]
      have hclosS : ∀ e ∈ s', ∃ l0, List.lookup e m = some l0 ∧ ∀ e2 ∈ adj l0, e2 ∈ s' := by
        intro e he
        exact hclos e he (List.not_mem_nil e)
      have hSsubkeys : ∀ e ∈ s', e ∈ m.map Prod.fst := by
        intro e he
        obtain ⟨l0, hl0, _⟩ := hclosS e he
        exact List.mem_map.mpr ⟨(e, l0), lookup_mem hl0, rfl⟩
      refine ⟨hkeys, hvals, ?_, ?_⟩
      · intro p hp
        exact ⟨List.mem_append.mpr (Or.inl (hedge p hp).1), (hedge p hp).2⟩
      · intro P hP
        obtain ⟨hPf, hPs, hPm⟩ := hP
        set mS := m.filter (fun q => decide (q.1 ∈ s')) with hmS
        set PR := P.filter (fun p => !decide (p.2 ∈ s')) with hPR
        have hmSlen : mS.length = s'.length := by
          have e1 : mS.map Prod.fst = (m.map Prod.fst).filter (fun e => decide (e ∈ s')) := by
            rw [hmS]
            exact filter_map_fst m (fun e => decide (e ∈ s'))
          have e2 : (mS.map Prod.fst).length = mS.length := List.length_map _ _
          rw [← e2, e1]
          apply nodup_length_eq_of_mem_iff (hkeys.filter _) hnodS
          intro x
          rw [List.mem_filter]
          constructor
          · intro hx
            have := hx.2
            simpa using this
          · intro hx
            exact ⟨hSsubkeys x hx, by simpa using hx⟩
        have hPSlen : (P.filter (fun p => decide (p.2 ∈ s'))).length ≤ s'.length := by
          have hnd : ((P.filter (fun p => decide (p.2 ∈ s'))).map Prod.snd).Nodup :=
            ((List.filter_sublist P).map Prod.snd).nodup hPs
          have hsubS : ((P.filter (fun p => decide (p.2 ∈ s'))).map Prod.snd) ⊆ s' := by
            intro x hx
            obtain ⟨p, hp, rfl⟩ := List.mem_map.mp hx
            have := (List.mem_filter.mp hp).2
            simpa using this
          have := (hnd.subperm hsubS).length_le
          rwa [List.length_map] at this
        have hMstar : (mS.map (fun q => (q.2, q.1)) ++ PR).length ≤ m.length := by
          apply hmax
          refine ⟨?_, ?_, ?_⟩
          · rw [List.map_append, List.map_map]
            have hms : (mS.map (Prod.fst ∘ fun q => (q.2, q.1))) = mS.map Prod.snd := rfl
            rw [hms]
            apply List.Nodup.append
            · exact ((List.filter_sublist m).map Prod.snd).nodup hvals
            · exact ((List.filter_sublist P).map Prod.fst).nodup hPf
            · intro l2 hl1 hl2
              obtain ⟨q, hq, rfl⟩ := List.mem_map.mp hl1
              have hqm := List.mem_filter.mp hq
              have hq1S : q.1 ∈ s' := by
                have := hqm.2
                simpa using this
              obtain ⟨l0, hl0, hadj0⟩ := hclosS q.1 hq1S
              have hq2 : List.lookup q.1 m = some q.2 := by
                apply lookup_of_mem_nodup hkeys
                have : (q.1, q.2) = q := rfl
                rw [this]
                exact hqm.1
              rw [hq2] at hl0
              obtain rfl := Option.some.inj hl0
              obtain ⟨p, hp, hp1⟩ := List.mem_map.mp hl2
              have hpPR := List.mem_filter.mp hp
              have hp2S : p.2 ∉ s' := by
                have := hpPR.2
                simpa using this
              have : p.2 ∈ adj p.1 := (hPm p hpPR.1).2
              rw [hp1] at this
              exact hp2S (hadj0 p.2 this)
          · rw [List.map_append, List.map_map]
            have hms : (mS.map (Prod.snd ∘ fun q => (q.2, q.1))) = mS.map Prod.fst := rfl
            rw [hms]
            apply List.Nodup.append
            · exact ((List.filter_sublist m).map Prod.fst).nodup hkeys
            · exact ((List.filter_sublist P).map Prod.snd).nodup hPs
            · intro e he1 he2
              obtain ⟨q, hq, rfl⟩ := List.mem_map.mp he1
              have hq1S : q.1 ∈ s' := by
                have := (List.mem_filter.mp hq).2
                simpa using this
              obtain ⟨p, hp, hp2⟩ := List.mem_map.mp he2
              have hp2S : p.2 ∉ s' := by
                have := (List.mem_filter.mp hp).2
                simpa using this
              rw [hp2] at hp2S
              exact hp2S hq1S
          · intro p hp
            rcases List.mem_append.mp hp with h | h
            · obtain ⟨q, hq, rfl⟩ := List.mem_map.mp h
              have hqm := (List.mem_filter.mp hq).1
              exact ⟨(hedge q hqm).1, (hedge q hqm).2⟩
            · have hpPR := List.mem_filter.mp h
              have hp2S : p.2 ∉ s' := by
                have := hpPR.2
                simpa using this
              have hne : p.1 ≠ line := by
                intro hpl
                apply hp2S
                apply hadjline
                rw [← hpl]
                exact (hPm p hpPR.1).2
              refine ⟨?_, (hPm p hpPR.1).2⟩
              rcases List.mem_append.mp (hPm p hpPR.1).1 with h2 | h2
              · exact h2
              · exact absurd (List.mem_singleton.mp h2) hne
        rw [List.length_append, List.length_map, hmSlen] at hMstar
        have hsplit := filter_split_length (fun p => decide (p.2 ∈ s')) P
        rw [← hPR] at hsplit
        omega

theorem kuhn_loop_inv (adj : Line → List Emp) (U : List Emp)
    (hU : ∀ l, ∀ e ∈ adj l, e ∈ U) (fuel : Nat) (hfuel : U.length < fuel) :
    ∀ (rest : List Line) (L : List Line) (m : List (Emp × Line)), rest.Nodup →
      (∀ l ∈ rest, l ∉ L) → KuhnInv adj L m →
      KuhnInv adj (L ++ rest) (kuhn_loop adj fuel rest m) := by
  intro rest
  induction rest with
  | nil =>
      intro L m _ _ hinv
      simpa [kuhn_loop] using hinv
  | cons line rest2 ih =>
      intro L m hnodup hfresh hinv
      have hstep := kuhn_step adj U hU fuel hfuel L line m hinv
        (hfresh line (List.mem_cons_self _ _))
      have hres := ih (L ++ [line]) (try_augment adj fuel line m []).2.1
        (List.nodup_cons.mp hnodup).2 ?_ hstep
      · have : (L ++ [line]) ++ rest2 = L ++ line :: rest2 := by simp
        rw [this] at hres
        exact hres
      · intro l hl
        intro hmem
        rcases List.mem_append.mp hmem with h | h
        · exact hfresh l (List.mem_cons_of_mem _ hl) h
        · rw [List.mem_singleton.mp h] at hl
          exact (List.nodup_cons.mp hnodup).1 hl

theorem kuhn_inv_final (lines : List Line) (emps : List Employee) (hL : lines.Nodup) :
    KuhnInv (line_to_emps emps) lines (match_emp_to_line lines emps) := by
  have hU : ∀ l, ∀ e ∈ line_to_emps emps l, e ∈ emp_ids emps := by
    intro l e he
    unfold line_to_emps at he
    obtain ⟨emp, _, rfl⟩ := List.mem_map.mp he
    unfold emp_ids
    rw [List.mem_dedup]
    exact List.mem_map.mpr ⟨emp, (List.mem_filter.mp (by assumption)).1, rfl⟩
  have hfuel : (emp_ids emps).length < emps.length + 1 := by
    have h1 : (emp_ids emps).length ≤ (emps.map Employee.id).length :=
      (List.dedup_sublist _).length_le
    rw [List.length_map] at h1
    omega
  have hbase : KuhnInv (line_to_emps emps) [] [] := by
    refine ⟨List.nodup_nil, List.nodup_nil, fun p hp => absurd hp (List.not_mem_nil p), ?_⟩
    intro P hP
    obtain ⟨_, _, hm⟩ := hP
    have : P = [] := by
      rw [List.eq_nil_iff_forall_not_mem]
      intro p hp
      exact absurd (hm p hp).1 (List.not_mem_nil _)
    rw [this]
  have := kuhn_loop_inv (line_to_emps emps) (emp_ids emps) hU (emps.length + 1) hfuel
    lines [] [] hL (fun l _ => List.not_mem_nil l) hbase
  simpa [match_emp_to_line] using this

theorem kuhn_eq_trueMax (lines : List Line) (emps : List Employee) (hL : lines.Nodup) :
    max_size lines emps = trueMaxMatchingSize lines emps := by
  obtain ⟨hkeys, hvals, hedge, hmax⟩ := kuhn_inv_final lines emps hL
  apply le_antisymm
  · have hswap : matchingOn (line_to_emps emps) lines
        ((match_emp_to_line lines emps).map (fun q => (q.2, q.1))) := by
      refine ⟨?_, ?_, ?_⟩
      · rw [List.map_map]
        exact hvals
      · rw [List.map_map]
        exact hkeys
      · intro p hp
        obtain ⟨q, hq, rfl⟩ := List.mem_map.mp hp
        exact ⟨(hedge q hq).1, (hedge q hq).2⟩
    have := matching_le_trueMax hswap
    rwa [List.length_map] at this
  · obtain ⟨P, hP, hlen⟩ := trueMax_attained lines emps
    rw [← hlen]
    exact hmax P hP

/-- C3: the Matcher's count of matched employees equals the true
maximum-cardinality matching size of the qualification graph. -/
theorem claim_C3 (lines_available : List Line) (employees_available : List Employee)
    (hL : lines_available.Nodup) :
    max_size lines_available employees_available
      = trueMaxMatchingSize lines_available employees_available :=
  kuhn_eq_trueMax lines_available employees_available hL

theorem claim_C3_witness :
    ([1, 2] : List Line).Nodup ∧
    max_size [1, 2] [⟨1, some [1]⟩, ⟨2, some [1, 2]⟩]
      = trueMaxMatchingSize [1, 2] [⟨1, some [1]⟩, ⟨2, some [1, 2]⟩] :=
  ⟨by decide, claim_C3 [1, 2] [⟨1, some [1]⟩, ⟨2, some [1, 2]⟩] (by decide)⟩

/-- C6: whenever the maximum matching size is zero (in particular for empty
line or employee lists), `employee_assignment` returns the empty list — so
the enumerator, which is guarded behind `max_size = 0`, is never run — and
the core returns the empty output. -/
theorem claim_C6 (lines_available : List Line) (employees_available : List Employee)
    (production_orders : List POrder) (materials : List Material) (s len : Int)
    (hL : lines_available.Nodup)
    (h0 : trueMaxMatchingSize lines_available employees_available = 0) :
    employee_assignment lines_available employees_available = [] ∧
    plan_core lines_available employees_available production_orders materials s len
      = ⟨s, [], [], []⟩ := by
  have hmax0 : max_size lines_available employees_available = 0 := by
    rw [kuhn_eq_trueMax lines_available employees_available hL, h0]
  have hea : employee_assignment lines_available employees_available = [] := by
    unfold employee_assignment
    simp [hmax0]
  refine ⟨hea, ?_⟩
  unfold plan_core
  rw [hea]

theorem claim_C6_witness :
    (([] : List Line).Nodup ∧ trueMaxMatchingSize [] [] = 0) ∧
    (employee_assignment [] [] = [] ∧
      plan_core [] [] [] [] 0 28800 = ⟨0, [], [], []⟩) :=
  ⟨⟨by decide, by decide⟩, claim_C6 [] [] [] [] 0 28800 (by decide) (by decide)⟩

/-! ## Enumerator lemmas -/

theorem pairLE_iff (a1 a2 b1 b2 : Nat) : pairLE (a1, a2) (b1, b2) = true ↔
    (a1 < b1 ∨ (a1 = b1 ∧ a2 ≤ b2)) := by
  simp [pairLE, Nat.blt_eq, Nat.ble_eq, Nat.beq_eq_true_eq]

theorem pairLE_trans (a b c : Line × Emp) (hab : pairLE a b = true) (hbc : pairLE b c = true) :
    pairLE a c = true := by
  obtain ⟨a1, a2⟩ := a
  obtain ⟨b1, b2⟩ := b
  obtain ⟨c1, c2⟩ := c
  rw [pairLE_iff] at hab hbc ⊢
  omega

theorem pairLE_total (a b : Line × Emp) : (pairLE a b || pairLE b a) = true := by
  obtain ⟨a1, a2⟩ := a
  obtain ⟨b1, b2⟩ := b
  rw [Bool.or_eq_true, pairLE_iff, pairLE_iff]
  omega

theorem pairLE_antisymm (a b : Line × Emp) (hab : pairLE a b = true) (hba : pairLE b a = true) :
    a = b := by
  obtain ⟨a1, a2⟩ := a
  obtain ⟨b1, b2⟩ := b
  rw [pairLE_iff] at hab hba
  rcases hab with h | ⟨h1, h2⟩
  · rcases hba with h' | ⟨h1', h2'⟩
    · exact absurd h' (Nat.lt_asymm h)
    · rw [h1'] at h
      exact absurd h (Nat.lt_irrefl a1)
  · rcases hba with h' | ⟨h1', h2'⟩
    · rw [h1] at h'
      exact absurd h' (Nat.lt_irrefl b1)
    · have e2 : a2 = b2 := Nat.le_antisymm h2 h2'
      rw [h1, e2]

theorem sortPairs_perm (p : List (Line × Emp)) : (sortPairs p).Perm p :=
  List.perm_insertionSort _ p

theorem sortPairs_sorted (p : List (Line × Emp)) :
    List.Pairwise (fun a b => pairLE a b = true) (sortPairs p) :=
  @List.sorted_insertionSort (Line × Emp) (fun a b => pairLE a b = true) _
    ⟨fun a b => (Bool.or_eq_true _ _).mp (pairLE_total a b)⟩
    ⟨fun a b c hab hbc => pairLE_trans a b c hab hbc⟩ p

theorem sortPairs_eq_of_perm {p q : List (Line × Emp)} (h : p.Perm q) :
    sortPairs p = sortPairs q := by
  refine @List.eq_of_perm_of_sorted (Line × Emp) (fun a b => pairLE a b = true)
    ⟨fun a b hab hba => pairLE_antisymm a b hab hba⟩ _ _
    ((sortPairs_perm p).trans (h.trans (sortPairs_perm q).symm)) ?_ ?_
  · exact sortPairs_sorted p
  · exact sortPairs_sorted q

theorem mem_insertResult {res : List (List (Line × Emp))} {r x : List (Line × Emp)} :
    x ∈ insertResult res r ↔ x ∈ res ∨ x = r := by
  unfold insertResult
  by_cases h : r ∈ res
  · rw [if_pos h]
    constructor
    · exact Or.inl
    · rintro (hx | rfl)
      · exact hx
      · exact h
  · rw [if_neg h]
    simp

theorem self_mem_insertResult (res : List (List (Line × Emp))) (r : List (Line × Emp)) :
    r ∈ insertResult res r :=
  mem_insertResult.mpr (Or.inr rfl)

theorem insertResult_sublist (res : List (List (Line × Emp))) (r : List (Line × Emp)) :
    res.Sublist (insertResult res r) := by
  unfold insertResult
  by_cases h : r ∈ res
  · rw [if_pos h]
  · rw [if_neg h]
    exact (List.sublist_append_left _ _)

theorem insertResult_nodup {res : List (List (Line × Emp))} (r : List (Line × Emp))
    (h : res.Nodup) : (insertResult res r).Nodup := by
  unfold insertResult
  by_cases hr : r ∈ res
  · rw [if_pos hr]
    exact h
  · rw [if_neg hr]
    rw [List.nodup_append]
    exact ⟨h, List.nodup_singleton r, by simp [hr]⟩

theorem foldl_sublist_of_step {β : Type}
    {f : List (List (Line × Emp)) → β → List (List (Line × Emp))}
    (hstep : ∀ (acc : List (List (Line × Emp))) (e : β), acc.Sublist (f acc e)) :
    ∀ (cands : List β) (acc : List (List (Line × Emp))),
      acc.Sublist (cands.foldl f acc) := by
  intro cands
  induction cands with
  | nil => intro acc; exact List.Sublist.refl _
  | cons e rest ih =>
      intro acc
      exact (hstep acc e).trans (ih (f acc e))

theorem foldl_nodup_of_step {β : Type}
    {f : List (List (Line × Emp)) → β → List (List (Line × Emp))}
    (hstep : ∀ (acc : List (List (Line × Emp))) (e : β), acc.Nodup → (f acc e).Nodup) :
    ∀ (cands : List β) (acc : List (List (Line × Emp))),
      acc.Nodup → (cands.foldl f acc).Nodup := by
  intro cands
  induction cands with
  | nil => intro acc h; exact h
  | cons e rest ih =>
      intro acc h
      exact ih (f acc e) (hstep acc e h)

theorem backtrack_sublist (adj : Line → List Emp) (M total : Nat) :
    ∀ (rem : List Line) (used : List Emp) (cur : List (Line × Emp))
      (res : List (List (Line × Emp))), res.Sublist (backtrack adj M total rem used cur res) := by
  intro rem
  induction rem with
  | nil =>
      intro used cur res
      simp only [backtrack]
      split
      · exact List.Sublist.refl _
      · split
        · exact insertResult_sublist _ _
        · exact List.Sublist.refl _
  | cons line rest ih =>
      intro used cur res
      simp only [backtrack]
      split
      · exact List.Sublist.refl _
      · refine (ih used cur res).trans ?_
        apply foldl_sublist_of_step
        intro acc e
        dsimp only
        by_cases he : e ∈ used
        · rw [if_pos he]
        · rw [if_neg he]
          exact ih (e :: used) (cur ++ [(line, e)]) acc

theorem backtrack_nodup (adj : Line → List Emp) (M total : Nat) :
    ∀ (rem : List Line) (used : List Emp) (cur : List (Line × Emp))
      (res : List (List (Line × Emp))),
      res.Nodup → (backtrack adj M total rem used cur res).Nodup := by
  intro rem
  induction rem with
  | nil =>
      intro used cur res hres
      simp only [backtrack]
      split
      · exact hres
      · split
        · exact insertResult_nodup _ hres
        · exact hres
  | cons line rest ih =>
      intro used cur res hres
      simp only [backtrack]
      split
      · exact hres
      · refine foldl_nodup_of_step ?_ (adj line) _ (ih used cur res hres)
        intro acc e hacc
        dsimp only
        by_cases he : e ∈ used
        · rw [if_pos he]
          exact hacc
        · rw [if_neg he]
          exact ih (e :: used) (cur ++ [(line, e)]) acc hacc

theorem BtSound_cons_of_tail (adj : Line → List Emp) (M : Nat) (line : Line) (rest : List Line)
    (used : List Emp) (cur : List (Line × Emp)) (r : List (Line × Emp))
    (h : BtSound adj M rest used cur r) : BtSound adj M (line :: rest) used cur r := by
  obtain ⟨ext, h1, h2, h3, h4, h5⟩ := h
  exact ⟨ext, h1, h2, h3, h4, fun p hp =>
    ⟨List.mem_cons_of_mem _ (h5 p hp).1, (h5 p hp).2.1, (h5 p hp).2.2⟩⟩

theorem BtSound_extend (adj : Line → List Emp) (M : Nat) (line : Line) (rest : List Line)
    (used : List Emp) (cur : List (Line × Emp)) (e : Emp) (r : List (Line × Emp))
    (hadj : e ∈ adj line) (hu : e ∉ used) (hline : line ∉ rest)
    (h : BtSound adj M rest (e :: used) (cur ++ [(line, e)]) r) :
    BtSound adj M (line :: rest) used cur r := by
  obtain ⟨ext, h1, h2, h3, h4, h5⟩ := h
  rw [List.append_assoc, List.singleton_append] at h1 h2
  refine ⟨(line, e) :: ext, h1, h2, ?_, ?_, ?_⟩
  · simp only [List.map_cons, List.nodup_cons]
    refine ⟨?_, h3⟩
    intro hmem
    obtain ⟨p, hp, hpe⟩ := List.mem_map.mp hmem
    have := (h5 p hp).1
    rw [hpe] at this
    exact hline this
  · simp only [List.map_cons, List.nodup_cons]
    refine ⟨?_, h4⟩
    intro hmem
    obtain ⟨p, hp, hpe⟩ := List.mem_map.mp hmem
    have := (h5 p hp).2.2
    rw [hpe] at this
    exact this (List.mem_cons_self _ _)
  · intro p hp
    rcases List.mem_cons.mp hp with rfl | hp'
    · exact ⟨List.mem_cons_self _ _, hadj, hu⟩
    · have := h5 p hp'
      exact ⟨List.mem_cons_of_mem _ this.1, this.2.1,
        fun hc => this.2.2 (List.mem_cons_of_mem _ hc)⟩

theorem backtrack_sound (adj : Line → List Emp) (M total : Nat) :
    ∀ (rem : List Line), rem.Nodup →
      ∀ (used : List Emp) (cur : List (Line × Emp)) (res : List (List (Line × Emp)))
        (r : List (Line × Emp)), r ∈ backtrack adj M total rem used cur res →
        r ∈ res ∨ BtSound adj M rem used cur r := by
  intro rem
  induction rem with
  | nil =>
      intro _ used cur res r hr
      simp only [backtrack] at hr
      split at hr
      · exact Or.inl hr
      · split at hr
        next hM =>
          rcases mem_insertResult.mp hr with h | h
          · exact Or.inl h
          · refine Or.inr ⟨[], ?_, ?_, by simp, by simp, by simp⟩
            · rw [List.append_nil]
              exact h
            · rw [List.append_nil]
              exact hM
        next => exact Or.inl hr
  | cons line rest ihrem =>
      intro hnd used cur res r hr
      have hline : line ∉ rest := (List.nodup_cons.mp hnd).1
      have hrest : rest.Nodup := (List.nodup_cons.mp hnd).2
      simp only [backtrack] at hr
      split at hr
      · exact Or.inl hr
      · have hres1 : ∀ x ∈ backtrack adj M total rest used cur res,
            x ∈ res ∨ BtSound adj M (line :: rest) used cur x := by
          intro x hx
          rcases ihrem hrest used cur res x hx with h | h
          · exact Or.inl h
          · exact Or.inr (BtSound_cons_of_tail adj M line rest used cur x h)
        have hfold : ∀ (cands : List Emp), (∀ e ∈ cands, e ∈ adj line) →
            ∀ (acc : List (List (Line × Emp))),
              (∀ x ∈ acc, x ∈ res ∨ BtSound adj M (line :: rest) used cur x) →
              ∀ x ∈ cands.foldl
                (fun r e => if e ∈ used then r
                  else backtrack adj M total rest (e :: used) (cur ++ [(line, e)]) r) acc,
                x ∈ res ∨ BtSound adj M (line :: rest) used cur x := by
          intro cands
          induction cands with
          | nil => intro _ acc hacc x hx; exact hacc x hx
          | cons e cands ihc =>
              intro hsub acc hacc x hx
              simp only [List.foldl_cons] at hx
              refine ihc (fun e' he' => hsub e' (List.mem_cons_of_mem _ he')) _ ?_ x hx
              intro y hy
              by_cases he : e ∈ used
              · rw [if_pos he] at hy
                exact hacc y hy
              · rw [if_neg he] at hy
                rcases ihrem hrest (e :: used) (cur ++ [(line, e)]) acc y hy with h | h
                · exact hacc y h
                · exact Or.inr (BtSound_extend adj M line rest used cur e y
                    (hsub e (List.mem_cons_self _ _)) he hline h)
        exact hfold (adj line) (fun e he => he) _ hres1 r hr

theorem backtrack_pairs (adj : Line → List Emp) (M total : Nat) :
    ∀ (rem : List Line) (used : List Emp) (cur : List (Line × Emp))
      (res : List (List (Line × Emp))) (r : List (Line × Emp)),
      r ∈ backtrack adj M total rem used cur res →
      r ∈ res ∨ ∀ p ∈ r, p ∈ cur ∨ p.2 ∈ adj p.1 := by
  intro rem
  induction rem with
  | nil =>
      intro used cur res r hr
      simp only [backtrack] at hr
      split at hr
      · exact Or.inl hr
      · split at hr
        next hM =>
          rcases mem_insertResult.mp hr with h | h
          · exact Or.inl h
          · refine Or.inr ?_
            intro p hp
            rw [h] at hp
            exact Or.inl ((sortPairs_perm cur).subset hp)
        next => exact Or.inl hr
  | cons line rest ihrem =>
      intro used cur res r hr
      simp only [backtrack] at hr
      split at hr
      · exact Or.inl hr
      · have hres1 : ∀ x ∈ backtrack adj M total rest used cur res,
            x ∈ res ∨ ∀ p ∈ x, p ∈ cur ∨ p.2 ∈ adj p.1 :=
          fun x hx => ihrem used cur res x hx
        have hfold : ∀ (cands : List Emp), (∀ e ∈ cands, e ∈ adj line) →
            ∀ (acc : List (List (Line × Emp))),
              (∀ x ∈ acc, x ∈ res ∨ ∀ p ∈ x, p ∈ cur ∨ p.2 ∈ adj p.1) →
              ∀ x ∈ cands.foldl
                (fun r e => if e ∈ used then r
                  else backtrack adj M total rest (e :: used) (cur ++ [(line, e)]) r) acc,
                x ∈ res ∨ ∀ p ∈ x, p ∈ cur ∨ p.2 ∈ adj p.1 := by
          intro cands
          induction cands with
          | nil => intro _ acc hacc x hx; exact hacc x hx
          | cons e cands ihc =>
              intro hsub acc hacc x hx
              simp only [List.foldl_cons] at hx
              refine ihc (fun e' he' => hsub e' (List.mem_cons_of_mem _ he')) _ ?_ x hx
              intro y hy
              by_cases he : e ∈ used
              · rw [if_pos he] at hy
                exact hacc y hy
              · rw [if_neg he] at hy
                rcases ihrem (e :: used) (cur ++ [(line, e)]) acc y hy with h | h
                · exact hacc y h
                · refine Or.inr ?_
                  intro p hp
                  rcases h p hp with hc | hedge
                  · rcases List.mem_append.mp hc with hc' | hc'
                    · exact Or.inl hc'
                    · right
                      have hpe : p = (line, e) := by simpa using hc'
                      rw [hpe]
                      exact hsub e (List.mem_cons_self _ _)
                  · exact Or.inr hedge
        exact hfold (adj line) (fun e he => he) _ hres1 r hr

theorem used_ext_count (U used : List Emp) (ext : List (Line × Emp))
    (hund : used.Nodup) (hsnd : (ext.map Prod.snd).Nodup)
    (hdisj : ∀ p ∈ ext, p.2 ∉ used)
    (husub : ∀ u ∈ used, u ∈ U) (hextU : ∀ p ∈ ext, p.2 ∈ U) :
    used.length + ext.length ≤ U.length := by
  have hnd : (used ++ ext.map Prod.snd).Nodup := by
    rw [List.nodup_append]
    refine ⟨hund, hsnd, ?_⟩
    intro a ha hb
    obtain ⟨p, hp, hpe⟩ := List.mem_map.mp hb
    exact hdisj p hp (by rw [hpe]; exact ha)
  have hsubU : used ++ ext.map Prod.snd ⊆ U := by
    intro a ha
    rcases List.mem_append.mp ha with h | h
    · exact husub a h
    · obtain ⟨p, hp, hpe⟩ := List.mem_map.mp h
      rw [← hpe]
      exact hextU p hp
  have := (hnd.subperm hsubU).length_le
  simpa using this

theorem foldl_mem_of_step {β : Type}
    {f : List (List (Line × Emp)) → β → List (List (Line × Emp))}
    (hmono : ∀ (acc : List (List (Line × Emp))) (e : β), acc.Sublist (f acc e))
    (x : List (Line × Emp)) (e0 : β)
    (hx : ∀ acc, x ∈ f acc e0) :
    ∀ (cands : List β) (acc : List (List (Line × Emp))), e0 ∈ cands →
      x ∈ cands.foldl f acc := by
  intro cands
  induction cands with
  | nil => intro acc h; cases h
  | cons e cands ihc =>
      intro acc hmem
      simp only [List.foldl_cons]
      rcases List.mem_cons.mp hmem with rfl | hmem'
      · exact (foldl_sublist_of_step hmono cands (f acc e0)).subset (hx acc)
      · exact ihc (f acc e) hmem'

theorem backtrack_complete (adj : Line → List Emp) (M : Nat) (U : List Emp) :
    ∀ (rem : List Line) (used : List Emp) (cur : List (Line × Emp))
      (res : List (List (Line × Emp))) (ext : List (Line × Emp)),
      (ext.map Prod.fst).Sublist rem →
      (∀ p ∈ ext, p.2 ∈ adj p.1 ∧ p.2 ∉ used ∧ p.2 ∈ U) →
      (ext.map Prod.snd).Nodup →
      used.Nodup →
      (∀ u ∈ used, u ∈ U) →
      (cur ++ ext).length = M →
      sortPairs (cur ++ ext) ∈ backtrack adj M U.length rem used cur res := by
  intro rem
  induction rem with
  | nil =>
      intro used cur res ext hsub hcond hsnd hund husub hlen
      have hext : ext = [] := by
        cases ext with
        | nil => rfl
        | cons p ext' =>
            exfalso
            have := List.sublist_nil.mp hsub
            simp at this
      subst hext
      have hused : used.length ≤ U.length := by
        have := used_ext_count U used [] hund (by simp) (by simp) husub (by simp)
        simpa using this
      rw [List.append_nil] at hlen ⊢
      simp only [backtrack]
      split
      next h => exfalso; omega
      next => exact self_mem_insertResult res (sortPairs cur)
  | cons line rest ih =>
      intro used cur res ext hsub hcond hsnd hund husub hlen
      have hcount : used.length + ext.length ≤ U.length :=
        used_ext_count U used ext hund hsnd (fun p hp => (hcond p hp).2.1) husub
          (fun p hp => (hcond p hp).2.2)
      have hrestlen : ext.length ≤ rest.length + 1 := by
        have := hsub.length_le
        simpa using this
      have hl : cur.length + ext.length = M := by
        simpa [List.length_append] using hlen
      simp only [backtrack]
      split
      next h => exfalso; omega
      next =>
        cases ext with
        | nil =>
            have h1 : sortPairs (cur ++ []) ∈ backtrack adj M U.length rest used cur res :=
              ih used cur res [] (by simp) (by simp) (by simp) hund husub
                (by simpa using hlen)
            refine (foldl_sublist_of_step ?_ (adj line) _).subset h1
            intro acc e
            dsimp only
            by_cases he : e ∈ used
            · rw [if_pos he]
            · rw [if_neg he]
              exact backtrack_sublist adj M U.length rest (e :: used) (cur ++ [(line, e)]) acc
        | cons p ext' =>
            obtain ⟨pl, pe⟩ := p
            simp only [List.map_cons] at hsub
            cases hsub with
            | cons _ h2 =>
                have h1 : sortPairs (cur ++ (pl, pe) :: ext') ∈
                    backtrack adj M U.length rest used cur res :=
                  ih used cur res ((pl, pe) :: ext') (by simpa using h2) hcond hsnd hund
                    husub hlen
                refine (foldl_sublist_of_step ?_ (adj line) _).subset h1
                intro acc e
                dsimp only
                by_cases he : e ∈ used
                · rw [if_pos he]
                · rw [if_neg he]
                  exact backtrack_sublist adj M U.length rest (e :: used)
                    (cur ++ [(line, e)]) acc
            | cons₂ _ h2 =>
                have hhead := hcond (line, pe) (List.mem_cons_self _ _)
                have hpe_adj : pe ∈ adj line := hhead.1
                have hpe_used : pe ∉ used := hhead.2.1
                have hpe_U : pe ∈ U := hhead.2.2
                have hsnd' : (pe :: ext'.map Prod.snd).Nodup := hsnd
                have hpe_snd : pe ∉ ext'.map Prod.snd := (List.nodup_cons.mp hsnd').1
                refine foldl_mem_of_step ?_ (sortPairs (cur ++ (line, pe) :: ext')) pe ?_
                  (adj line) _ hpe_adj
                · intro acc e
                  dsimp only
                  by_cases he : e ∈ used
                  · rw [if_pos he]
                  · rw [if_neg he]
                    exact backtrack_sublist adj M U.length rest (e :: used)
                      (cur ++ [(line, e)]) acc
                · intro acc
                  dsimp only
                  rw [if_neg hpe_used]
                  have key := ih (pe :: used) (cur ++ [(line, pe)]) acc ext' h2 ?cond
                    ?snd ?und ?usub ?len
                  · rw [List.append_assoc, List.singleton_append] at key
                    exact key
                  case cond =>
                    intro q hq
                    have hqc := hcond q (List.mem_cons_of_mem _ hq)
                    refine ⟨hqc.1, ?_, hqc.2.2⟩
                    intro hcq
                    rcases List.mem_cons.mp hcq with hqe | hqu
                    · exact hpe_snd (by
                        rw [← hqe]
                        exact List.mem_map.mpr ⟨q, hq, rfl⟩)
                    · exact hqc.2.1 hqu
                  case snd => exact (List.nodup_cons.mp hsnd').2
                  case und => exact List.nodup_cons.mpr ⟨hpe_used, hund⟩
                  case usub =>
                    intro u hu
                    rcases List.mem_cons.mp hu with rfl | hu'
                    · exact hpe_U
                    · exact husub u hu'
                  case len =>
                    simp only [List.length_append, List.length_cons, List.length_nil]
                      at hlen ⊢
                    omega

theorem matchingOn_perm {adj : Line → List Emp} {L : List Line}
    {P Q : List (Line × Emp)} (h : P.Perm Q) (hm : matchingOn adj L P) :
    matchingOn adj L Q := by
  obtain ⟨h1, h2, h3⟩ := hm
  refine ⟨((h.map Prod.fst).nodup_iff).mp h1, ((h.map Prod.snd).nodup_iff).mp h2, ?_⟩
  intro p hp
  exact h3 p (h.mem_iff.mpr hp)

theorem sortPairs_sortPairs (p : List (Line × Emp)) :
    sortPairs (sortPairs p) = sortPairs p :=
  sortPairs_eq_of_perm (sortPairs_perm p)

theorem ordered_lines_perm (lines_available : List Line) (employees_available : List Employee) :
    (ordered_lines lines_available employees_available).Perm lines_available :=
  List.perm_insertionSort _ _

theorem ordered_lines_nodup (lines_available : List Line) (employees_available : List Employee)
    (h : lines_available.Nodup) :
    (ordered_lines lines_available employees_available).Nodup :=
  ((ordered_lines_perm lines_available employees_available).nodup_iff).mpr h

theorem line_to_emps_subset_emp_ids (employees_available : List Employee) (l : Line) :
    ∀ x ∈ line_to_emps employees_available l, x ∈ emp_ids employees_available := by
  intro x hx
  unfold line_to_emps at hx
  obtain ⟨e, he, rfl⟩ := List.mem_map.mp hx
  have he' : e ∈ employees_available := (List.mem_filter.mp he).1
  exact List.mem_dedup.mpr (List.mem_map.mpr ⟨e, he', rfl⟩)

theorem mem_employee_assignment {lines_available : List Line}
    {employees_available : List Employee} {r : List (Line × Emp)} :
    r ∈ employee_assignment lines_available employees_available ↔
      max_size lines_available employees_available ≠ 0 ∧
      r ∈ enumerate_matchings lines_available employees_available
        (max_size lines_available employees_available) := by
  unfold employee_assignment
  by_cases hM : max_size lines_available employees_available = 0
  · simp [hM]
  · rw [if_neg hM]
    constructor
    · intro h
      exact ⟨hM, (List.perm_insertionSort _ _).mem_iff.mp h⟩
    · intro h
      exact (List.perm_insertionSort _ _).mem_iff.mpr h.2

theorem enumerate_sound (lines_available : List Line) (employees_available : List Employee)
    (M : Nat) (hL : lines_available.Nodup) :
    ∀ r ∈ enumerate_matchings lines_available employees_available M,
      matchingOn (line_to_emps employees_available) lines_available r ∧
      r.length = M ∧ r = sortPairs r := by
  intro r hr
  unfold enumerate_matchings at hr
  rcases backtrack_sound (line_to_emps employees_available) M
      (emp_ids employees_available).length
      (ordered_lines lines_available employees_available)
      (ordered_lines_nodup lines_available employees_available hL) [] [] [] r hr with h | h
  · cases h
  · obtain ⟨ext, h1, h2, h3, h4, h5⟩ := h
    simp only [List.nil_append] at h1 h2
    have hperm : r.Perm ext := by
      rw [h1]
      exact sortPairs_perm ext
    refine ⟨?_, ?_, ?_⟩
    · refine matchingOn_perm hperm.symm ⟨h3, h4, ?_⟩
      intro p hp
      have := h5 p hp
      exact ⟨((ordered_lines_perm lines_available employees_available).mem_iff).mp this.1,
        this.2.1⟩
    · rw [hperm.length_eq, h2]
    · rw [h1, sortPairs_sortPairs]

theorem enumerate_nodup (lines_available : List Line) (employees_available : List Employee)
    (M : Nat) :
    (enumerate_matchings lines_available employees_available M).Nodup := by
  unfold enumerate_matchings
  exact backtrack_nodup _ _ _ _ _ _ _ List.nodup_nil

theorem eraseFirst_sublist (P : List (Line × Emp)) (p : Line × Emp) :
    (eraseFirst P p).Sublist P := by
  induction P with
  | nil => simp [eraseFirst]
  | cons q rest ih =>
      simp only [eraseFirst]
      split
      · exact List.Sublist.cons q (List.Sublist.refl rest)
      · exact List.Sublist.cons₂ q ih

theorem not_mem_eraseFirst {P : List (Line × Emp)} {p : Line × Emp} (hnd : P.Nodup) :
    p ∉ eraseFirst P p := by
  induction P with
  | nil => simp [eraseFirst]
  | cons q rest ih =>
      have hq := List.nodup_cons.mp hnd
      simp only [eraseFirst]
      split
      next h => rw [← h]; exact hq.1
      next h =>
        intro hmem
        rcases List.mem_cons.mp hmem with h' | h'
        · exact h h'.symm
        · exact ih hq.2 h'

theorem perm_cons_eraseFirst {P : List (Line × Emp)} {p : Line × Emp} (h : p ∈ P) :
    P.Perm (p :: eraseFirst P p) := by
  induction P with
  | nil => cases h
  | cons q rest ih =>
      simp only [eraseFirst]
      by_cases hq : q = p
      · rw [if_pos hq, hq]
      · rw [if_neg hq]
        rcases List.mem_cons.mp h with h' | h'
        · exact absurd h'.symm hq
        · exact ((ih h').cons q).trans (List.Perm.swap p q _)

theorem exists_ordered_ext :
    ∀ (OL : List Line) (P : List (Line × Emp)),
      (P.map Prod.fst).Nodup → (∀ p ∈ P, p.1 ∈ OL) →
      ∃ ext : List (Line × Emp), ext.Perm P ∧ (ext.map Prod.fst).Sublist OL := by
  intro OL
  induction OL with
  | nil =>
      intro P hnd hmem
      cases P with
      | nil => exact ⟨[], List.Perm.refl _, by simp⟩
      | cons p P' => exact absurd (hmem p (List.mem_cons_self _ _)) (by simp)
  | cons l OL' ih =>
      intro P hnd hmem
      by_cases hex : ∃ p ∈ P, p.1 = l
      · obtain ⟨p0, hp0, hp0l⟩ := hex
        have hPnd : P.Nodup := hnd.of_map
        have herase_nd : ((eraseFirst P p0).map Prod.fst).Nodup :=
          hnd.sublist ((eraseFirst_sublist P p0).map Prod.fst)
        have herase_mem : ∀ q ∈ eraseFirst P p0, q.1 ∈ OL' := by
          intro q hq
          have hqP : q ∈ P := (eraseFirst_sublist P p0).subset hq
          have hq_ne : q ≠ p0 := fun h => not_mem_eraseFirst hPnd (h ▸ hq)
          rcases List.mem_cons.mp (hmem q hqP) with h | h
          · exfalso
            exact hq_ne (List.inj_on_of_nodup_map hnd hqP hp0 (by rw [h, hp0l]))
          · exact h
        obtain ⟨ext', hperm', hsub'⟩ := ih (eraseFirst P p0) herase_nd herase_mem
        refine ⟨p0 :: ext', ?_, ?_⟩
        · exact (List.Perm.cons p0 hperm').trans (perm_cons_eraseFirst hp0).symm
        · simp only [List.map_cons]
          rw [hp0l]
          exact List.Sublist.cons₂ l hsub'
      · push_neg at hex
        have hmem' : ∀ p ∈ P, p.1 ∈ OL' := by
          intro p hp
          rcases List.mem_cons.mp (hmem p hp) with h | h
          · exact absurd h (hex p hp)
          · exact h
        obtain ⟨ext', hperm', hsub'⟩ := ih P hnd hmem'
        exact ⟨ext', hperm', List.Sublist.cons l hsub'⟩

theorem enumerate_complete (lines_available : List Line) (employees_available : List Employee)
    (M : Nat) (P : List (Line × Emp))
    (hm : matchingOn (line_to_emps employees_available) lines_available P)
    (hlen : P.length = M) :
    sortPairs P ∈ enumerate_matchings lines_available employees_available M := by
  obtain ⟨h1, h2, h3⟩ := hm
  obtain ⟨ext, hperm, hsub⟩ := exists_ordered_ext
    (ordered_lines lines_available employees_available) P h1
    (fun p hp =>
      ((ordered_lines_perm lines_available employees_available).mem_iff).mpr (h3 p hp).1)
  have key := backtrack_complete (line_to_emps employees_available) M
    (emp_ids employees_available)
    (ordered_lines lines_available employees_available) [] [] [] ext hsub ?cond ?snd
    List.nodup_nil (by simp) ?len
  · unfold enumerate_matchings
    rw [List.nil_append] at key
    rw [sortPairs_eq_of_perm hperm] at key
    exact key
  case cond =>
    intro p hp
    have hpP : p ∈ P := hperm.subset hp
    refine ⟨(h3 p hpP).2, by simp, ?_⟩
    exact line_to_emps_subset_emp_ids employees_available p.1 p.2 (h3 p hpP).2
  case snd => exact ((hperm.map Prod.snd).nodup_iff).mpr h2
  case len =>
    rw [List.nil_append, hperm.length_eq, hlen]

/-- C1: with a duplicate-free line set and positive maximum matching size, the
enumerator's result set is exactly the set of maximum matchings of the
qualification graph: it is duplicate-free (even up to reordering of the pairs
inside a result), every result is a valid matching of cardinality equal to the
true maximum, and the normal form of every maximum matching appears in it, so
the prune test never cuts a branch that can still reach the maximum. -/
theorem claim_C1 (lines_available : List Line) (employees_available : List Employee)
    (hL : lines_available.Nodup)
    (hpos : 0 < trueMaxMatchingSize lines_available employees_available) :
    (enumerate_matchings lines_available employees_available
        (max_size lines_available employees_available)).Nodup ∧
    (∀ r ∈ enumerate_matchings lines_available employees_available
        (max_size lines_available employees_available),
      ∀ r' ∈ enumerate_matchings lines_available employees_available
        (max_size lines_available employees_available), r.Perm r' → r = r') ∧
    (∀ r ∈ enumerate_matchings lines_available employees_available
        (max_size lines_available employees_available),
      matchingOn (line_to_emps employees_available) lines_available r ∧
      r.length = trueMaxMatchingSize lines_available employees_available) ∧
    (∀ P, matchingOn (line_to_emps employees_available) lines_available P →
      P.length = trueMaxMatchingSize lines_available employees_available →
      sortPairs P ∈ enumerate_matchings lines_available employees_available
        (max_size lines_available employees_available)) := by
  have hms := kuhn_eq_trueMax lines_available employees_available hL
  refine ⟨enumerate_nodup _ _ _, ?_, ?_, ?_⟩
  · intro r hr r' hr' hperm
    have h1 := (enumerate_sound _ _ _ hL r hr).2.2
    have h2 := (enumerate_sound _ _ _ hL r' hr').2.2
    rw [h1, h2]
    exact sortPairs_eq_of_perm hperm
  · intro r hr
    have h := enumerate_sound _ _ _ hL r hr
    exact ⟨h.1, by rw [h.2.1, hms]⟩
  · intro P hm hlen
    exact enumerate_complete _ _ _ P hm (by rw [hlen, hms])

theorem claim_C1_witness :
    ([1] : List Line).Nodup ∧
    0 < trueMaxMatchingSize [1] [⟨1, some [1]⟩] ∧
    ((enumerate_matchings [1] [⟨1, some [1]⟩] (max_size [1] [⟨1, some [1]⟩])).Nodup ∧
    (∀ r ∈ enumerate_matchings [1] [⟨1, some [1]⟩] (max_size [1] [⟨1, some [1]⟩]),
      ∀ r' ∈ enumerate_matchings [1] [⟨1, some [1]⟩] (max_size [1] [⟨1, some [1]⟩]),
        r.Perm r' → r = r') ∧
    (∀ r ∈ enumerate_matchings [1] [⟨1, some [1]⟩] (max_size [1] [⟨1, some [1]⟩]),
      matchingOn (line_to_emps [⟨1, some [1]⟩]) [1] r ∧
      r.length = trueMaxMatchingSize [1] [⟨1, some [1]⟩]) ∧
    (∀ P, matchingOn (line_to_emps [⟨1, some [1]⟩]) [1] P →
      P.length = trueMaxMatchingSize [1] [⟨1, some [1]⟩] →
      sortPairs P ∈ enumerate_matchings [1] [⟨1, some [1]⟩] (max_size [1] [⟨1, some [1]⟩]))) :=
  ⟨by decide, by decide, claim_C1 [1] [⟨1, some [1]⟩] (by decide) (by decide)⟩

/-- C4: with distinct line identifiers and distinct employee identifiers, every
assignment the enumerator pipeline `employee_assignment` outputs is a valid
matching — no line paired twice and no employee paired twice, every pair an
edge of the qualification graph — and its cardinality is exactly the true
maximum matching size. -/
theorem claim_C4 (lines_available : List Line) (employees_available : List Employee)
    (hL : lines_available.Nodup)
    (hE : (employees_available.map Employee.id).Nodup) :
    ∀ r ∈ employee_assignment lines_available employees_available,
      matchingOn (line_to_emps employees_available) lines_available r ∧
      r.length = trueMaxMatchingSize lines_available employees_available := by
  intro r hr
  rcases mem_employee_assignment.mp hr with ⟨hM, hr'⟩
  have h := enumerate_sound lines_available employees_available _ hL r hr'
  exact ⟨h.1, by rw [h.2.1, kuhn_eq_trueMax lines_available employees_available hL]⟩

theorem claim_C4_witness :
    ([1, 2] : List Line).Nodup ∧
    (([⟨1, some [1]⟩, ⟨2, some [1, 2]⟩] : List Employee).map Employee.id).Nodup ∧
    (∀ r ∈ employee_assignment [1, 2] [⟨1, some [1]⟩, ⟨2, some [1, 2]⟩],
      matchingOn (line_to_emps [⟨1, some [1]⟩, ⟨2, some [1, 2]⟩]) [1, 2] r ∧
      r.length = trueMaxMatchingSize [1, 2] [⟨1, some [1]⟩, ⟨2, some [1, 2]⟩]) :=
  ⟨by decide, by decide,
    claim_C4 [1, 2] [⟨1, some [1]⟩, ⟨2, some [1, 2]⟩] (by decide) (by decide)⟩

/-- C9: with distinct employee identifiers, an employee record whose
`qualifiedLines` key is absent (modelled as `none`, as for a record keeping its
qualifications under a differently spelled key) contributes no edge to the
qualification graph for any line, and its identifier never occurs in any
assignment produced by `employee_assignment`. -/
theorem claim_C9 (lines_available : List Line) (employees_available : List Employee)
    (e : Employee) (hE : (employees_available.map Employee.id).Nodup)
    (he : e ∈ employees_available) (hq : e.qualifiedLines = none) :
    (∀ line : Line, e.id ∉ line_to_emps employees_available line) ∧
    (∀ r ∈ employee_assignment lines_available employees_available,
      ∀ p ∈ r, p.2 ≠ e.id) := by
  have hno : ∀ line : Line, e.id ∉ line_to_emps employees_available line := by
    intro line hmem
    unfold line_to_emps at hmem
    obtain ⟨e', he', hid⟩ := List.mem_map.mp hmem
    have he'emps : e' ∈ employees_available := (List.mem_filter.mp he').1
    have hql : line ∈ e'.quals := by simpa using (List.mem_filter.mp he').2
    have hee : e' = e := List.inj_on_of_nodup_map hE he'emps he hid
    rw [hee] at hql
    unfold Employee.quals at hql
    rw [hq] at hql
    simp at hql
  refine ⟨hno, ?_⟩
  intro r hr p hp hpe
  rcases mem_employee_assignment.mp hr with ⟨hM, hr'⟩
  unfold enumerate_matchings at hr'
  rcases backtrack_pairs (line_to_emps employees_available) _ _ _ _ _ _ r hr' with h | h
  · cases h
  · rcases h p hp with hcur | hedge
    · cases hcur
    · exact hno p.1 (hpe ▸ hedge)

theorem claim_C9_witness :
    (([⟨1, some [1]⟩, ⟨2, none⟩] : List Employee).map Employee.id).Nodup ∧
    (⟨2, none⟩ : Employee) ∈ ([⟨1, some [1]⟩, ⟨2, none⟩] : List Employee) ∧
    (⟨2, none⟩ : Employee).qualifiedLines = none ∧
    ((∀ line : Line, (⟨2, none⟩ : Employee).id ∉ line_to_emps [⟨1, some [1]⟩, ⟨2, none⟩] line) ∧
    (∀ r ∈ employee_assignment [1] [⟨1, some [1]⟩, ⟨2, none⟩],
      ∀ p ∈ r, p.2 ≠ (⟨2, none⟩ : Employee).id)) :=
  ⟨by decide, by decide, by decide,
    claim_C9 [1] [⟨1, some [1]⟩, ⟨2, none⟩] ⟨2, none⟩ (by decide) (by decide) (by decide)⟩
